import Mathlib

/-!
Verification of the cross-document discrepancy checker
(`scripts/doc-discrepancy-check.js`): a shallow embedding of its numeric
normalizer, dollar parser, context-key builder, fact extractor, similarity
clustering and report assembly, together with theorems about the properties
the design document states for them.

Modelling conventions:
* JavaScript numbers are modelled as `Option ℚ`: `some q` is a finite
  value and `none` models `NaN`.  Number parsing and the magnitude
  multiplications round to IEEE-754 binary64 precision through
  `roundDouble` (53 significant bits, round to nearest, ties to even), so
  decimal arithmetic behaves exactly as in JavaScript; already-rounded
  values are carried and compared exactly as rationals.
* JavaScript `null` returns are modelled with an outer `Option` layer.
* Strings are processed as their character lists; the documents this tool
  scans are ASCII text, and the `\s`, `\d`, `\w` and `[a-z]` character
  classes are modelled over ASCII exactly as the regexes state them.
* Each concrete regex of the source is compiled by hand into a
  deterministic matcher that implements the JS engine's leftmost,
  greedy-with-backtracking semantics for that particular pattern.
-/

namespace DocCheck

attribute [local semireducible] Rat.add Rat.mul Rat.inv Rat.sub

/-- Characters matched by the JavaScript `\s` class (ASCII portion). -/
def jsSpace (c : Char) : Bool :=
  c == ' ' || c == '\t' || c == '\n' || c == '\r' || c == '\x0b' || c == '\x0c'

/-- Word characters for the JavaScript `\b` boundary assertion: `[A-Za-z0-9_]`. -/
def isWordChar (c : Char) : Bool :=
  ('a' ≤ c && c ≤ 'z') || ('A' ≤ c && c ≤ 'Z') || c.isDigit || c == '_'

/-- Helper bound used for termination of scanners that skip whitespace runs. -/
theorem dropWhile_length_le {α : Type} (p : α → Bool) :
    ∀ l : List α, (l.dropWhile p).length ≤ l.length
  | [] => Nat.le_refl _
  | a :: l => by
    rw [List.dropWhile]
    split
    · exact Nat.le_trans (dropWhile_length_le p l) (Nat.le_succ _)
    · exact Nat.le_refl _

/-- Splitter for `s.split(/\s+/)`: cuts at every maximal whitespace run,
producing an empty leading (trailing) token when the string starts (ends)
with whitespace, exactly as the JS `split` does.  The `fuel` argument makes
the recursion structural (each step consumes at least one character, so
`l.length + 1` fuel always suffices); fuel exhaustion cannot occur on the
advertised call. -/
def splitWsGo : Nat → List Char → List Char → List String
  | 0, _, acc => [⟨acc.reverse⟩]
  | _ + 1, [], acc => [⟨acc.reverse⟩]
  | fuel + 1, c :: rest, acc =>
    if jsSpace c then ⟨acc.reverse⟩ :: splitWsGo fuel (rest.dropWhile jsSpace) []
    else splitWsGo fuel rest (c :: acc)

/-- JS `s.split(/\s+/)`. -/
def jsSplitWs (s : String) : List String := splitWsGo (s.data.length + 1) s.data []

/-- Token list used by `keySimilarity`: split a key on whitespace, keep the
tokens of length `> 1` that are not the placeholder `"#"`, and deduplicate
(the JS code stores them in a `Set`; only membership and cardinality of the
set are ever used, so the deduplicated list represents it faithfully). -/
def simTokens (s : String) : List String :=
  ((jsSplitWs s).filter (fun w => w.length > 1 && w != "#")).dedup

/-- Word-overlap similarity of two context keys (`keySimilarity` in the
source): intersection-over-union of the two token sets, `0` when the union
is empty. -/
def keySimilarity (a b : String) : ℚ :=
  let wa := simTokens a
  let wb := simTokens b
  let inter := (wa.filter (fun w => wb.contains w)).length
  let union := ((wa ++ wb).dedup).length
  if union = 0 then 0 else (inter : ℚ) / (union : ℚ)

theorem simTokens_nodup (s : String) : (simTokens s).Nodup := List.nodup_dedup _

/-- The intersection count computed by `keySimilarity` is the cardinality of
the intersection of the two token sets. -/
theorem inter_length_eq (a b : String) :
    ((simTokens a).filter (fun w => (simTokens b).contains w)).length
      = ((simTokens a).toFinset ∩ (simTokens b).toFinset).card := by
  classical
  have hnd : ((simTokens a).filter (fun w => (simTokens b).contains w)).Nodup :=
    (simTokens_nodup a).filter _
  rw [← List.toFinset_card_of_nodup hnd, List.toFinset_filter]
  congr 1
  rw [← Finset.filter_mem_eq_inter]
  apply Finset.filter_congr
  intro x _
  simp [List.contains, List.elem_iff]

/-- The union count computed by `keySimilarity` is the cardinality of the
union of the two token sets. -/
theorem union_length_eq (a b : String) :
    ((simTokens a ++ simTokens b).dedup).length
      = ((simTokens a).toFinset ∪ (simTokens b).toFinset).card := by
  classical
  rw [← List.card_toFinset, List.toFinset_append]

/-- C9: the word-overlap similarity is symmetric:
`keySimilarity a b = keySimilarity b a` for all keys. -/
theorem keySimilarity_symm (a b : String) : keySimilarity a b = keySimilarity b a := by
  simp only [keySimilarity]
  rw [inter_length_eq a b, inter_length_eq b a, union_length_eq a b, union_length_eq b a,
    Finset.inter_comm, Finset.union_comm]

/-- C10: `keySimilarity` is total and always returns a rational in `[0, 1]`;
the division by the union size is guarded by the `union = 0` check. -/
theorem keySimilarity_bounds (a b : String) :
    0 ≤ keySimilarity a b ∧ keySimilarity a b ≤ 1 := by
  simp only [keySimilarity]
  rw [inter_length_eq a b, union_length_eq a b]
  set i := ((simTokens a).toFinset ∩ (simTokens b).toFinset).card with hi
  set u := ((simTokens a).toFinset ∪ (simTokens b).toFinset).card with hu
  by_cases h : u = 0
  · simp [h]
  · have hle : i ≤ u := by
      rw [hi, hu]
      exact Finset.card_le_card (Finset.inter_subset_union)
    have hu0 : (0 : ℚ) < (u : ℚ) := by
      exact_mod_cast Nat.pos_of_ne_zero h
    constructor
    · simp only [h, if_false]
      positivity
    · simp only [h, if_false]
      rw [div_le_one hu0]
      exact_mod_cast hle

/-! ### Greedy single-link clustering (`groupSimilarKeys`) -/

/-- One step of the inner absorption loop of `groupSimilarKeys`: a key `o`
not yet used that is linked (similarity `≥ 0.5`) to some member of the
current group is appended to the group and marked used. -/
def linkStep (group used : List String) (o : String) : List String × List String :=
  if o ∈ used then (group, used)
  else if group.any (fun g => keySimilarity g o ≥ (1 : ℚ) / 2) then
    (group ++ [o], o :: used)
  else (group, used)

/-- The inner `for (const o of keys)` loop: fold `linkStep` over all keys. -/
def innerPass (keys : List String) (group used : List String) :
    List String × List String :=
  keys.foldl (fun p o => linkStep p.1 p.2 o) (group, used)

/-- The outer loop of `groupSimilarKeys`: each key not yet used starts a new
cluster, which then absorbs unassigned linked keys in one inner pass. -/
def outerAux (keys : List String) :
    List String → List String → List (List String) × List String
  | [], used => ([], used)
  | k :: rest, used =>
    if k ∈ used then outerAux keys rest used
    else
      let p := innerPass keys [k] (k :: used)
      let q := outerAux keys rest p.2
      (p.1 :: q.1, q.2)

/-- `groupSimilarKeys` from the source: greedy single-link clustering over
the list of context keys (in encounter order). -/
def groupSimilarKeys (keys : List String) : List (List String) :=
  (outerAux keys keys []).1

/-- Characterization of `linkStep`: the group gains at most the single fresh
key `o`, and the used set tracks exactly the group additions. -/
theorem linkStep_spec (group used : List String) (o : String) :
    ∃ new, linkStep group used o = (group ++ new, new ++ used) ∧
      new.Nodup ∧ (∀ x ∈ new, x ∉ used ∧ (x = o)) := by
  unfold linkStep
  by_cases h1 : o ∈ used
  · refine ⟨[], ?_⟩
    rw [if_pos h1]
    simp
  · rw [if_neg h1]
    by_cases h2 : (group.any fun g => keySimilarity g o ≥ (1 : ℚ) / 2) = true
    · rw [if_pos h2]
      refine ⟨[o], rfl, List.nodup_singleton o, ?_⟩
      intro x hx
      rw [List.mem_singleton] at hx
      subst hx
      exact ⟨h1, rfl⟩
    · rw [if_neg h2]
      exact ⟨[], by simp, List.nodup_nil, by simp⟩

/-- Characterization of the inner pass: the group grows by a duplicate-free
list of fresh keys drawn from `keys`, and the used set is extended by
exactly those keys. -/
theorem innerPass_spec (keys : List String) :
    ∀ group used, ∃ new,
      (innerPass keys group used).1 = group ++ new ∧
      (∀ x, x ∈ (innerPass keys group used).2 ↔ x ∈ used ∨ x ∈ new) ∧
      new.Nodup ∧ (∀ x ∈ new, x ∉ used ∧ x ∈ keys) := by
  induction keys with
  | nil =>
    intro group used
    exact ⟨[], by simp [innerPass]⟩
  | cons o rest ih =>
    intro group used
    obtain ⟨n1, hstep, hn1nd, hn1⟩ := linkStep_spec group used o
    have hunf : innerPass (o :: rest) group used
        = innerPass rest (group ++ n1) (n1 ++ used) := by
      simp only [innerPass, List.foldl_cons]
      rw [hstep]
    obtain ⟨n2, h1, h2, h3, h4⟩ := ih (group ++ n1) (n1 ++ used)
    refine ⟨n1 ++ n2, ?_, ?_, ?_, ?_⟩
    · rw [hunf, h1, List.append_assoc]
    · intro x
      rw [hunf, h2 x]
      simp only [List.mem_append]
      tauto
    · rw [List.nodup_append]
      refine ⟨hn1nd, h3, ?_⟩
      intro x hx1 hx2
      exact (h4 x hx2).1 (by simp [hx1])
    · intro x hx
      rcases List.mem_append.mp hx with hx1 | hx2
      · exact ⟨(hn1 x hx1).1, by simp [(hn1 x hx1).2]⟩
      · have := h4 x hx2
        refine ⟨fun hu => this.1 (by simp [hu]), by simp [this.2]⟩

/-- Characterization of the outer loop: the produced clusters are pairwise
disjoint and duplicate-free, consist of keys not used on entry, and are
drawn from `pending ∪ keys`; the final used set is the entry set extended by
exactly the clustered keys, and every pending key ends up used. -/
theorem outerAux_spec (keys : List String) :
    ∀ pending used,
      (∀ x, x ∈ (outerAux keys pending used).2 ↔
        x ∈ used ∨ x ∈ (outerAux keys pending used).1.flatten) ∧
      (outerAux keys pending used).1.flatten.Nodup ∧
      (∀ x ∈ (outerAux keys pending used).1.flatten,
        x ∉ used ∧ (x ∈ pending ∨ x ∈ keys)) ∧
      (∀ k ∈ pending, k ∈ (outerAux keys pending used).2) := by
  intro pending
  induction pending with
  | nil =>
    intro used
    simp [outerAux]
  | cons k rest ih =>
    intro used
    by_cases hk : k ∈ used
    · have hunf : outerAux keys (k :: rest) used = outerAux keys rest used := by
        simp [outerAux, hk]
      obtain ⟨i1, i2, i3, i4⟩ := ih used
      rw [hunf]
      refine ⟨i1, i2, ?_, ?_⟩
      · intro x hx
        exact ⟨(i3 x hx).1, by rcases (i3 x hx).2 with h | h <;> simp [h]⟩
      · intro x hx
        rcases List.mem_cons.mp hx with h | h
        · subst h
          exact (i1 x).mpr (Or.inl hk)
        · exact i4 x h
    · obtain ⟨new, hg, hu, hnd, hnew⟩ := innerPass_spec keys [k] (k :: used)
      set p := innerPass keys [k] (k :: used) with hp
      have hunf : outerAux keys (k :: rest) used
          = (p.1 :: (outerAux keys rest p.2).1, (outerAux keys rest p.2).2) := by
        simp [outerAux, hk]
      obtain ⟨i1, i2, i3, i4⟩ := ih p.2
      have hmemp2 : ∀ x, x ∈ p.2 ↔ x = k ∨ x ∈ used ∨ x ∈ new := by
        intro x
        rw [hu x]
        simp only [List.mem_cons]
        tauto
      constructor
      · intro x
        rw [hunf]
        simp only [List.flatten_cons, List.mem_append]
        rw [i1 x, hmemp2 x, hg]
        simp only [List.cons_append, List.nil_append, List.mem_cons]
        tauto
      · refine ⟨?_, ?_, ?_⟩
        · rw [hunf]
          simp only [List.flatten_cons]
          rw [List.nodup_append]
          refine ⟨?_, i2, ?_⟩
          · rw [hg]
            simp only [List.cons_append, List.nil_append, List.nodup_cons]
            refine ⟨fun hkn => (hnew k hkn).1 (by simp), hnd⟩
          · intro x hx1 hx2
            have := (i3 x hx2).1
            exact this ((hmemp2 x).mpr (by
              rw [hg] at hx1
              simp only [List.cons_append, List.nil_append, List.mem_cons] at hx1
              tauto))
        · intro x hx
          rw [hunf] at hx
          simp only [List.flatten_cons, List.mem_append] at hx
          rcases hx with hx | hx
          · rw [hg] at hx
            simp only [List.cons_append, List.nil_append, List.mem_cons] at hx
            rcases hx with hx | hx
            · subst hx
              exact ⟨hk, Or.inl (by simp)⟩
            · have := hnew x hx
              exact ⟨fun hu' => this.1 (by simp [hu']), Or.inr this.2⟩
          · have := i3 x hx
            refine ⟨?_, ?_⟩
            · intro hu'
              exact this.1 ((hmemp2 x).mpr (by tauto))
            · rcases this.2 with h | h
              · exact Or.inl (by simp [h])
              · exact Or.inr h
        · intro x hx
          rw [hunf]
          rcases List.mem_cons.mp hx with h | h
          · subst h
            exact (i1 x).mpr (Or.inl ((hmemp2 x).mpr (Or.inl rfl)))
          · exact i4 x h

/-- C5: the greedy single-link clustering produces a partition of the input
keys: the concatenation of the clusters is duplicate-free (so the clusters
are pairwise disjoint and no key is ever reassigned) and covers exactly the
input keys — each key belongs to exactly one cluster. -/
theorem groupSimilarKeys_partition (keys : List String) :
    (groupSimilarKeys keys).flatten.Nodup ∧
      ∀ k, k ∈ (groupSimilarKeys keys).flatten ↔ k ∈ keys := by
  obtain ⟨h1, h2, h3, h4⟩ := outerAux_spec keys keys []
  refine ⟨h2, fun k => ⟨?_, ?_⟩⟩
  · intro hk
    rcases (h3 k hk).2 with h | h <;> exact h
  · intro hk
    have := (h1 k).mp (h4 k hk)
    rcases this with h | h
    · simp at h
    · exact h

/-! ### Numeric normalizer (`normalizeNum`) and currency parser (`parseDollar`) -/

/-- Numeric value of a run of ASCII digit characters, most significant
first (the accumulator form used by both `parseInt` and `parseFloat`). -/
def digitsVal (ds : List Char) : ℕ :=
  ds.foldl (fun a c => 10 * a + (c.toNat - 48)) 0

/-- Value of a fractional digit run: `digits / 10 ^ length`. -/
def fracVal (ds : List Char) : ℚ :=
  (digitsVal ds : ℚ) / (10 : ℚ) ^ ds.length

/-- Floor of the base-2 logarithm of a natural number (0 for 0 and 1),
by fueled halving; `n` itself is always enough fuel. -/
def log2fuel : Nat → Nat → Nat
  | 0, _ => 0
  | fuel + 1, n => if n ≥ 2 then log2fuel fuel (n / 2) + 1 else 0

def natLog2 (n : Nat) : Nat := log2fuel n n

/-- `q / 2^e` for an integer exponent, in exact rational arithmetic. -/
def scalePow2 (q : ℚ) (e : ℤ) : ℚ :=
  if e ≥ 0 then q / ((2 : ℚ) ^ e.toNat) else q * ((2 : ℚ) ^ (-e).toNat)

/-- Round a positive rational to 53 significant bits, round to nearest
with ties to even: choose the exponent `e` with `q/2^e ∈ [2^52, 2^53)`
(it lies within one of the bit-length estimate), round the scaled
significand, and scale back. -/
def roundPos (q : ℚ) : ℚ :=
  let e0 : ℤ := (natLog2 q.num.toNat : ℤ) - (natLog2 q.den : ℤ) - 52
  let pick : ℤ → Bool := fun e =>
    decide ((2 : ℚ) ^ 52 ≤ scalePow2 q e) && decide (scalePow2 q e < (2 : ℚ) ^ 53)
  let e := if pick (e0 - 1) then e0 - 1 else if pick e0 then e0 else e0 + 1
  let s := scalePow2 q e
  let m0 : ℤ := ⌊s⌋
  let r := s - (m0 : ℚ)
  let m : ℤ :=
    if r > 1 / 2 then m0 + 1
    else if r < 1 / 2 then m0
    else if m0 % 2 = 0 then m0 else m0 + 1
  scalePow2 (m : ℚ) (-e)

/-- IEEE-754 binary64 rounding (round to nearest, ties to even) with
unbounded exponent: this coincides with JavaScript number semantics on the
whole binary64 normal range (magnitudes between about `10⁻³⁰⁰` and
`10³⁰⁰`), which covers every value this program can parse out of a
document; overflow to `Infinity` and subnormal underflow lie outside that
range and are not modelled. -/
def roundDouble (q : ℚ) : ℚ :=
  if q = 0 then 0
  else if q < 0 then -roundPos (-q) else roundPos q

/-- Binary64 multiplication (`*` on JS numbers): the exact product,
correctly rounded. -/
def jsMul (a b : ℚ) : ℚ := roundDouble (a * b)

/-- JS `parseFloat`, modelled on the inputs reachable in this program:
optional leading whitespace, then a decimal numeral read as the longest
valid prefix and correctly rounded to binary64; `none` models `NaN` (no
numeral prefix).  Signs, exponents and `Infinity` are never produced by
the callers (every call site feeds a string pre-validated to digits, dots
and a magnitude word). -/
def jsParseFloat (s : String) : Option ℚ :=
  let cs := s.data.dropWhile jsSpace
  let ip := cs.takeWhile Char.isDigit
  let rest := cs.dropWhile Char.isDigit
  let fp := if rest.head? = some '.' then rest.tail.takeWhile Char.isDigit else []
  if ip.isEmpty && fp.isEmpty then none
  else some (roundDouble ((digitsVal ip : ℚ) + fracVal fp))

/-- JS `parseInt(s, 10)` on the inputs reachable here (an all-digit
string): the longest digit prefix, rounded to binary64 (a JS number),
`none` for `NaN`. -/
def jsParseInt (s : String) : Option ℚ :=
  let cs := s.data.dropWhile jsSpace
  let ip := cs.takeWhile Char.isDigit
  if ip.isEmpty then none else some (roundDouble (digitsVal ip : ℚ))

/-- Remove every comma (`String.replace(/,/g, "")`). -/
def stripCommas (s : String) : String := ⟨s.data.filter (fun c => c ≠ ',')⟩

/-- JS `String.trim()` (ASCII whitespace). -/
def jsTrim (s : String) : String :=
  ⟨((s.data.dropWhile jsSpace).reverse.dropWhile jsSpace).reverse⟩

/-- Test for `/^\d+$/`. -/
def isAllDigits (s : String) : Bool :=
  !s.data.isEmpty && s.data.all Char.isDigit

/-- Anchored test for `/^\d*\.?\d+\s*(<alt1>|<alt2>|...)$/` (the magnitude
branches of `normalizeNum`): a decimal numeral with at least one digit,
optional whitespace, then exactly one of the given suffix words.  The JS
engine's backtracking over `\d*\.?\d+` is equivalent to this deterministic
scan because the pattern is anchored at both ends. -/
def magnitudeTest (alts : List String) (s : String) : Bool :=
  let cs := s.data
  let ip := cs.takeWhile Char.isDigit
  let r := cs.dropWhile Char.isDigit
  let ok := if r.head? = some '.' then !(r.tail.takeWhile Char.isDigit).isEmpty
            else !ip.isEmpty
  let rest2 := if r.head? = some '.' then r.tail.dropWhile Char.isDigit else r
  let tl := rest2.dropWhile jsSpace
  ok && alts.any (fun a => tl == a.data)

/-- Anchored test for `/^[\d,]+(?:\.\d+)?$/` (the last branch of
`normalizeNum`). -/
def intCommaTest (s : String) : Bool :=
  let cs := s.data
  let ip := cs.takeWhile (fun c => c.isDigit || c == ',')
  let rest := cs.dropWhile (fun c => c.isDigit || c == ',')
  !ip.isEmpty &&
    (rest.isEmpty ||
      (rest.head? == some '.' && !rest.tail.isEmpty && rest.tail.all Char.isDigit))

/-- `normalizeNum` from the source: strip commas and trim, then try, in
order, a plain integer (`parseInt`), a `million|M|m` magnitude numeral, a
`thousand|k|K` magnitude numeral, and a plain decimal; `none` models the
`null` failure sentinel. -/
def normalizeNum (s : String) : Option ℚ :=
  let n := jsTrim (stripCommas s)
  if isAllDigits n then jsParseInt n
  else if magnitudeTest ["million", "M", "m"] n then
    (jsParseFloat n).map (fun x => jsMul x 1000000)
  else if magnitudeTest ["thousand", "k", "K"] n then
    (jsParseFloat n).map (fun x => jsMul x 1000)
  else if intCommaTest n then jsParseFloat (stripCommas n)
  else none

/-- Characters of the `[\d,.]` class. -/
def isAmtChar (c : Char) : Bool := c.isDigit || c == ',' || c == '.'

/-- ASCII lowercasing of a character list (JS `toLowerCase`, restricted to
the ASCII range the scanned documents use). -/
def lcStr (cs : List Char) : List Char := cs.map Char.toLower

/-- Case-insensitive literal prefix test (`pat` must be lowercase). -/
def startsWithCI (pat : List Char) (cs : List Char) : Bool :=
  lcStr (cs.take pat.length) == pat

/-- The optional magnitude suffix group
`(million|M|m|thousand|k|K)` with the `i` flag, attempted in the regex's
alternation order; returns the matched original characters. -/
def ciSuffix (cs : List Char) : Option (List Char) :=
  if startsWithCI "million".data cs then some (cs.take 7)
  else if (match cs with | c :: _ => c == 'm' || c == 'M' | [] => false) then some (cs.take 1)
  else if startsWithCI "thousand".data cs then some (cs.take 8)
  else if (match cs with | c :: _ => c == 'k' || c == 'K' | [] => false) then some (cs.take 1)
  else none

/-- First match of `/\$([\d,.]+)\s*(million|M|m|thousand|k|K)?/i` in the
string: returns the first capture (the `[\d,.]+` run after a `$`) and the
optional suffix capture.  The JS `match` scans left to right for the first
position where the pattern matches. -/
def parseDollarCore : List Char → Option (List Char × Option (List Char))
  | [] => none
  | c :: rest =>
    if c = '$' then
      let amt := rest.takeWhile isAmtChar
      if amt.isEmpty then parseDollarCore rest
      else some (amt, ciSuffix ((rest.drop amt.length).dropWhile jsSpace))
    else parseDollarCore rest

/-- Effect of the optional suffix capture on the parsed value, exactly as
the source applies it (`if (m[2]) { ... v *= 1e6 / v *= 1e3 }`): a binary64
multiplication by `1e6` for `million`/`m`, by `1e3` for `thousand`/`k`,
and no operation at all when the group did not participate. -/
def applySuffix (sfx : Option (List Char)) (x : ℚ) : ℚ :=
  match sfx with
  | some u =>
    if lcStr u == "million".data || lcStr u == "m".data then jsMul x 1000000
    else if lcStr u == "thousand".data || lcStr u == "k".data then jsMul x 1000
    else x
  | none => x

/-- `parseDollar` from the source.  The outer `Option` models the `null`
returned when the regex does not match; the inner `Option ℚ` is the JS
number (with `none` for `NaN`, reachable when the matched amount contains
no digits, e.g. `"$,"`). -/
def parseDollar (s : String) : Option (Option ℚ) :=
  match parseDollarCore s.data with
  | none => none
  | some (amt, sfx) =>
    some ((jsParseFloat ⟨amt.filter (fun c => c ≠ ',')⟩).map (applySuffix sfx))

/-! ### Generic scanning lemmas -/

theorem takeWhile_append_of_all {α : Type} (p : α → Bool) (l r : List α)
    (h : ∀ c ∈ l, p c = true) :
    (l ++ r).takeWhile p = l ++ r.takeWhile p := by
  induction l with
  | nil => simp
  | cons a t ih =>
    have ha := h a (List.mem_cons_self a t)
    simp only [List.cons_append, List.takeWhile_cons, ha, if_true]
    rw [ih (fun c hc => h c (List.mem_cons_of_mem a hc))]

theorem dropWhile_append_of_all {α : Type} (p : α → Bool) (l r : List α)
    (h : ∀ c ∈ l, p c = true) :
    (l ++ r).dropWhile p = r.dropWhile p := by
  induction l with
  | nil => simp
  | cons a t ih =>
    have ha := h a (List.mem_cons_self a t)
    simp only [List.cons_append, List.dropWhile_cons, ha, if_true]
    exact ih (fun c hc => h c (List.mem_cons_of_mem a hc))

theorem takeWhile_eq_nil_of_all_neg {α : Type} (p : α → Bool) (l : List α)
    (h : ∀ c ∈ l, p c = false) : l.takeWhile p = [] := by
  cases l with
  | nil => rfl
  | cons a t => simp [List.takeWhile_cons, h a (List.mem_cons_self a t)]

theorem dropWhile_eq_self_of_all_neg {α : Type} (p : α → Bool) (l : List α)
    (h : ∀ c ∈ l, p c = false) : l.dropWhile p = l := by
  cases l with
  | nil => rfl
  | cons a t => simp [List.dropWhile_cons, h a (List.mem_cons_self a t)]

theorem takeWhile_eq_self_of_all {α : Type} (p : α → Bool) (l : List α)
    (h : ∀ c ∈ l, p c = true) : l.takeWhile p = l := by
  have := takeWhile_append_of_all p l [] h
  simpa using this

/-! ### Numeral grammar for the exact-magnitude theorem (C3) -/

/-- A decimal digit rendered to its ASCII character. -/
def digitChar (d : Fin 10) : Char := Char.ofNat (48 + d.val)

/-- A digit list rendered to characters. -/
def digitsStr (ds : List (Fin 10)) : List Char := ds.map digitChar

/-- Value of a digit list, most significant digit first. -/
def natOfDigits (ds : List (Fin 10)) : ℕ := ds.foldl (fun a d => 10 * a + d.val) 0

/-- Integer part of a numeral: digit groups joined by comma separators
(one group means no separators). -/
def intRender : List (List (Fin 10)) → List Char
  | [] => []
  | [g] => digitsStr g
  | g :: gs => digitsStr g ++ ',' :: intRender gs

/-- Fractional part: `"." ++ digits`, empty when there is no fraction. -/
def fracPart (frac : List (Fin 10)) : List Char :=
  if frac = [] then [] else '.' :: digitsStr frac

/-- Rendering of a numeral with optional thousands separators and optional
decimal fraction. -/
def numeralStr (groups : List (List (Fin 10))) (frac : List (Fin 10)) : String :=
  ⟨intRender groups ++ fracPart frac⟩

/-- Mathematical value of the rendered numeral. -/
def numeralVal (groups : List (List (Fin 10))) (frac : List (Fin 10)) : ℚ :=
  (natOfDigits groups.flatten : ℚ) + (natOfDigits frac : ℚ) / (10 : ℚ) ^ frac.length

/-- The magnitude suffixes the checker accepts, including the empty one. -/
inductive Magnitude
  | one
  | kLower
  | kUpper
  | thousand
  | mLower
  | mUpper
  | million
deriving DecidableEq

/-- Literal spelling of a magnitude suffix. -/
def Magnitude.render : Magnitude → String
  | .one => ""
  | .kLower => "k"
  | .kUpper => "K"
  | .thousand => "thousand"
  | .mLower => "m"
  | .mUpper => "M"
  | .million => "million"

/-- Exact multiplier of a magnitude suffix (the quantity the design
document multiplies by). -/
def Magnitude.mult : Magnitude → ℚ
  | .one => 1
  | .kLower => 1000
  | .kUpper => 1000
  | .thousand => 1000
  | .mLower => 1000000
  | .mUpper => 1000000
  | .million => 1000000

/-- The program's end-to-end effect of a suffix on an already-rounded
parsed value: no operation for the empty suffix, one binary64
multiplication otherwise. -/
def Magnitude.apply : Magnitude → ℚ → ℚ
  | .one, v => v
  | .kLower, v => jsMul v 1000
  | .kUpper, v => jsMul v 1000
  | .thousand, v => jsMul v 1000
  | .mLower, v => jsMul v 1000000
  | .mUpper, v => jsMul v 1000000
  | .million, v => jsMul v 1000000

/-- Character classes of a rendered digit. -/
theorem digitChar_props : ∀ d : Fin 10,
    (digitChar d).isDigit = true ∧ digitChar d ≠ ',' ∧ digitChar d ≠ '.' ∧
      jsSpace (digitChar d) = false ∧ isAmtChar (digitChar d) = true ∧
      (digitChar d).toNat - 48 = d.val := by decide

/-- Character classes of all characters of a rendered digit run. -/
theorem digitsStr_props (ds : List (Fin 10)) :
    ∀ c ∈ digitsStr ds, c.isDigit = true ∧ c ≠ ',' ∧ c ≠ '.' ∧
      jsSpace c = false ∧ isAmtChar c = true := by
  intro c hc
  obtain ⟨d, _, rfl⟩ := List.mem_map.mp hc
  exact ⟨(digitChar_props d).1, (digitChar_props d).2.1, (digitChar_props d).2.2.1,
    (digitChar_props d).2.2.2.1, (digitChar_props d).2.2.2.2.1⟩

theorem foldl_digitsStr (ds : List (Fin 10)) :
    ∀ a : ℕ, (digitsStr ds).foldl (fun a c => 10 * a + (c.toNat - 48)) a
      = ds.foldl (fun a d => 10 * a + d.val) a := by
  induction ds with
  | nil => intro a; rfl
  | cons d t ih =>
    intro a
    simp only [digitsStr, List.map_cons, List.foldl_cons]
    rw [(digitChar_props d).2.2.2.2.2]
    exact ih _

/-- `digitsVal` on a rendered digit run computes `natOfDigits`. -/
theorem digitsVal_digitsStr (ds : List (Fin 10)) :
    digitsVal (digitsStr ds) = natOfDigits ds :=
  foldl_digitsStr ds 0

theorem digitsStr_append (a b : List (Fin 10)) :
    digitsStr (a ++ b) = digitsStr a ++ digitsStr b := by
  simp [digitsStr]

theorem digitsStr_length (ds : List (Fin 10)) : (digitsStr ds).length = ds.length := by
  simp [digitsStr]

theorem digitsStr_ne_nil {ds : List (Fin 10)} (h : ds ≠ []) : digitsStr ds ≠ [] := by
  cases ds with
  | nil => exact absurd rfl h
  | cons d t => simp [digitsStr]

/-- Character classes of the rendered integer part. -/
theorem intRender_props (gs : List (List (Fin 10))) :
    ∀ c ∈ intRender gs, (c.isDigit = true ∨ c = ',') ∧ c ≠ '.' ∧
      jsSpace c = false ∧ isAmtChar c = true := by
  induction gs with
  | nil => simp [intRender]
  | cons g t ih =>
    cases t with
    | nil =>
      intro c hc
      simp only [intRender] at hc
      have := digitsStr_props g c hc
      exact ⟨Or.inl this.1, this.2.2.1, this.2.2.2.1, this.2.2.2.2⟩
    | cons g2 t2 =>
      intro c hc
      simp only [intRender, List.mem_append, List.mem_cons] at hc
      rcases hc with hc | hc | hc
      · have := digitsStr_props g c hc
        exact ⟨Or.inl this.1, this.2.2.1, this.2.2.2.1, this.2.2.2.2⟩
      · subst hc
        exact ⟨Or.inr rfl, by decide, by decide, by decide⟩
      · exact ih c hc

/-- Stripping commas from the rendered integer part yields the plain digit
run of the concatenated groups. -/
theorem filter_intRender (gs : List (List (Fin 10))) :
    (intRender gs).filter (fun c => c ≠ ',') = digitsStr gs.flatten := by
  induction gs with
  | nil => simp [intRender, digitsStr]
  | cons g t ih =>
    cases t with
    | nil =>
      simp only [intRender, List.flatten_cons, List.flatten_nil, List.append_nil]
      rw [List.filter_eq_self.mpr]
      intro c hc
      simpa using (digitsStr_props g c hc).2.1
    | cons g2 t2 =>
      simp only [intRender, List.flatten_cons, List.filter_append, List.filter_cons]
      rw [List.filter_eq_self.mpr (fun c hc => by simpa using (digitsStr_props g c hc).2.1)]
      have : (fun c => decide (c ≠ ',')) ',' = false := by decide
      simp only [this, digitsStr_append]
      rw [ih]
      simp [List.flatten_cons, digitsStr_append]

theorem intRender_ne_nil {gs : List (List (Fin 10))} (hg : gs ≠ [])
    (hgs : ∀ g ∈ gs, g ≠ []) : intRender gs ≠ [] := by
  cases gs with
  | nil => exact absurd rfl hg
  | cons g t =>
    cases t with
    | nil =>
      simp only [intRender]
      exact digitsStr_ne_nil (hgs g (by simp))
    | cons g2 t2 =>
      simp only [intRender]
      intro h
      exact digitsStr_ne_nil (hgs g (by simp)) (by
        rcases List.append_eq_nil.mp h with ⟨h1, _⟩
        exact h1)

theorem flatten_ne_nil {gs : List (List (Fin 10))} (hg : gs ≠ [])
    (hgs : ∀ g ∈ gs, g ≠ []) : gs.flatten ≠ [] := by
  cases gs with
  | nil => exact absurd rfl hg
  | cons g t =>
    simp only [List.flatten_cons]
    intro h
    exact hgs g (by simp) (List.append_eq_nil.mp h).1

/-- Hypothesis bundle for the characters of a magnitude suffix: no digits,
no separators, no dots, no whitespace. -/
def sfxOk (S : List Char) : Prop :=
  ∀ c ∈ S, c.isDigit = false ∧ c ≠ ',' ∧ c ≠ '.' ∧ jsSpace c = false

theorem sfxOk_not_amt {S : List Char} (h : sfxOk S) :
    ∀ c ∈ S, isAmtChar c = false := by
  intro c hc
  obtain ⟨h1, h2, h3, _⟩ := h c hc
  simp [isAmtChar, h1, h2, h3]

/-- Any suffix rendering satisfies `sfxOk`. -/
theorem magnitude_sfxOk (sfx : Magnitude) : sfxOk sfx.render.data := by
  unfold sfxOk
  cases sfx <;> decide

/-- Leading-digit-run decomposition of the numeral-plus-suffix character
list: `takeWhile isDigit` keeps exactly the integer digits and `dropWhile`
leaves the fraction and suffix. -/
theorem digit_split (ds frac : List (Fin 10)) (S : List Char) (hS : sfxOk S) :
    (digitsStr ds ++ (fracPart frac ++ S)).takeWhile Char.isDigit = digitsStr ds ∧
      (digitsStr ds ++ (fracPart frac ++ S)).dropWhile Char.isDigit = fracPart frac ++ S := by
  have hall : ∀ c ∈ digitsStr ds, Char.isDigit c = true :=
    fun c hc => (digitsStr_props ds c hc).1
  have htail : (fracPart frac ++ S).takeWhile Char.isDigit = [] := by
    by_cases hf : frac = []
    · simp only [fracPart, hf, if_pos rfl, List.nil_append]
      exact takeWhile_eq_nil_of_all_neg _ S (fun c hc => (hS c hc).1)
    · simp only [fracPart, if_neg hf, List.cons_append]
      rw [List.takeWhile_cons_of_neg]
      simp
  have htaild : (fracPart frac ++ S).dropWhile Char.isDigit = fracPart frac ++ S := by
    by_cases hf : frac = []
    · simp only [fracPart, hf, if_pos rfl, List.nil_append]
      exact dropWhile_eq_self_of_all_neg _ S (fun c hc => (hS c hc).1)
    · simp only [fracPart, if_neg hf, List.cons_append]
      rw [List.dropWhile_cons_of_neg]
      simp
  constructor
  · rw [takeWhile_append_of_all _ _ _ hall, htail, List.append_nil]
  · rw [dropWhile_append_of_all _ _ _ hall, htaild]

/-- The whole numeral-plus-suffix character list contains no whitespace. -/
theorem numeral_no_space (ds frac : List (Fin 10)) (S : List Char) (hS : sfxOk S) :
    ∀ c ∈ digitsStr ds ++ (fracPart frac ++ S), jsSpace c = false := by
  intro c hc
  rcases List.mem_append.mp hc with h | h
  · exact (digitsStr_props ds c h).2.2.2.1
  rcases List.mem_append.mp h with h | h
  · by_cases hf : frac = []
    · simp [fracPart, hf] at h
    · simp only [fracPart, if_neg hf, List.mem_cons] at h
      rcases h with h | h
      · subst h; decide
      · exact (digitsStr_props frac c h).2.2.2.1
  · exact (hS c h).2.2.2

/-- Evaluation of `jsParseFloat` on a rendered plain numeral followed by a
suffix. -/
theorem jsParseFloat_eval (ds frac : List (Fin 10)) (S : List Char)
    (hds : ds ≠ []) (hS : sfxOk S) :
    jsParseFloat ⟨digitsStr ds ++ (fracPart frac ++ S)⟩
      = some (roundDouble
          ((natOfDigits ds : ℚ) + (natOfDigits frac : ℚ) / (10 : ℚ) ^ frac.length)) := by
  obtain ⟨htake, hdrop⟩ := digit_split ds frac S hS
  simp only [jsParseFloat]
  rw [dropWhile_eq_self_of_all_neg _ _ (numeral_no_space ds frac S hS), htake, hdrop]
  have hfp : (if (fracPart frac ++ S).head? = some '.'
      then (fracPart frac ++ S).tail.takeWhile Char.isDigit else [])
      = digitsStr frac := by
    by_cases hf : frac = []
    · have h1 : fracPart frac = [] := by simp [fracPart, hf]
      have h2 : digitsStr frac = [] := by simp [digitsStr, hf]
      rw [h1, h2, List.nil_append]
      cases S with
      | nil => simp
      | cons c t =>
        rw [if_neg]
        simp only [List.head?_cons, Option.some.injEq]
        exact (hS c (by simp)).2.2.1
    · have h1 : fracPart frac = '.' :: digitsStr frac := by simp [fracPart, hf]
      rw [h1, List.cons_append, List.head?_cons, List.tail_cons, if_pos rfl]
      rw [takeWhile_append_of_all _ _ _ (fun c hc => (digitsStr_props frac c hc).1),
        takeWhile_eq_nil_of_all_neg _ S (fun c hc => (hS c hc).1), List.append_nil]
  rw [hfp]
  rw [if_neg]
  · rw [digitsVal_digitsStr]
    simp only [fracVal, digitsVal_digitsStr, digitsStr_length]
  · intro hcon
    rw [Bool.and_eq_true] at hcon
    have := hcon.1
    rw [List.isEmpty_iff] at this
    exact digitsStr_ne_nil hds this

/-- Evaluation of `jsParseInt` on a rendered digit run. -/
theorem jsParseInt_eval (ds : List (Fin 10)) (hds : ds ≠ []) :
    jsParseInt ⟨digitsStr ds⟩ = some (roundDouble (natOfDigits ds : ℚ)) := by
  simp only [jsParseInt]
  rw [dropWhile_eq_self_of_all_neg _ _ (fun c hc => (digitsStr_props ds c hc).2.2.2.1),
    takeWhile_eq_self_of_all _ _ (fun c hc => (digitsStr_props ds c hc).1)]
  rw [if_neg]
  · rw [digitsVal_digitsStr]
  · rw [List.isEmpty_iff]
    exact digitsStr_ne_nil hds

/-- `isAllDigits` holds on a nonempty rendered digit run. -/
theorem isAllDigits_digitsStr (ds : List (Fin 10)) (hds : ds ≠ []) :
    isAllDigits ⟨digitsStr ds⟩ = true := by
  simp only [isAllDigits, Bool.and_eq_true, Bool.not_eq_true', List.all_eq_true]
  constructor
  · rw [← Bool.not_eq_true, List.isEmpty_iff]
    exact fun h => digitsStr_ne_nil hds h
  · exact fun c hc => (digitsStr_props ds c hc).1

/-- `isAllDigits` fails as soon as the string contains a fraction or a
suffix. -/
theorem isAllDigits_false (ds frac : List (Fin 10)) (S : List Char)
    (hS : sfxOk S) (hne : frac ≠ [] ∨ S ≠ []) :
    isAllDigits ⟨digitsStr ds ++ (fracPart frac ++ S)⟩ = false := by
  have hwit : ∃ c ∈ digitsStr ds ++ (fracPart frac ++ S), Char.isDigit c = false := by
    rcases hne with hf | hs
    · refine ⟨'.', ?_, by decide⟩
      have h1 : fracPart frac = '.' :: digitsStr frac := by simp [fracPart, hf]
      simp [h1]
    · cases S with
      | nil => exact absurd rfl hs
      | cons c t => exact ⟨c, by simp, (hS c (by simp)).1⟩
  obtain ⟨c, hc, hcd⟩ := hwit
  simp only [isAllDigits]
  have : (digitsStr ds ++ (fracPart frac ++ S)).all Char.isDigit = false := by
    rw [← Bool.not_eq_true, List.all_eq_true]
    intro hall
    rw [hall c hc] at hcd
    exact Bool.noConfusion hcd
  rw [this, Bool.and_false]

/-- Evaluation of a magnitude branch test on a rendered numeral followed by
a suffix: it reduces to membership of the suffix among the alternatives. -/
theorem magnitudeTest_eval (alts : List String) (ds frac : List (Fin 10)) (S : List Char)
    (hds : ds ≠ []) (hS : sfxOk S) :
    magnitudeTest alts ⟨digitsStr ds ++ (fracPart frac ++ S)⟩
      = alts.any (fun a => S == a.data) := by
  obtain ⟨htake, hdrop⟩ := digit_split ds frac S hS
  simp only [magnitudeTest]
  rw [htake, hdrop]
  by_cases hf : frac = []
  · have h1 : fracPart frac = [] := by simp [fracPart, hf]
    rw [h1, List.nil_append]
    have hcond : ¬(S.head? = some '.') := by
      cases S with
      | nil => simp
      | cons c t =>
        simp only [List.head?_cons, Option.some.injEq]
        exact (hS c (by simp)).2.2.1
    rw [if_neg hcond, if_neg hcond]
    rw [dropWhile_eq_self_of_all_neg _ S (fun c hc => (hS c hc).2.2.2)]
    have hips : (!(digitsStr ds).isEmpty) = true := by
      rw [Bool.not_eq_true', ← Bool.not_eq_true, List.isEmpty_iff]
      exact fun h => digitsStr_ne_nil hds h
    rw [hips, Bool.true_and]
  · have h1 : fracPart frac = '.' :: digitsStr frac := by simp [fracPart, hf]
    rw [h1, List.cons_append, List.head?_cons]
    rw [if_pos rfl, if_pos rfl, List.tail_cons]
    rw [takeWhile_append_of_all _ _ _ (fun c hc => (digitsStr_props frac c hc).1),
      takeWhile_eq_nil_of_all_neg _ S (fun c hc => (hS c hc).1), List.append_nil]
    rw [dropWhile_append_of_all _ _ _ (fun c hc => (digitsStr_props frac c hc).1),
      dropWhile_eq_self_of_all_neg _ S (fun c hc => (hS c hc).1)]
    rw [dropWhile_eq_self_of_all_neg _ S (fun c hc => (hS c hc).2.2.2)]
    have hips : (!(digitsStr frac).isEmpty) = true := by
      rw [Bool.not_eq_true', ← Bool.not_eq_true, List.isEmpty_iff]
      exact fun h => digitsStr_ne_nil hf h
    rw [hips, Bool.true_and]

/-- Evaluation of the `[\d,]+(\.\d+)?` branch test: it succeeds exactly
when there is no suffix. -/
theorem intCommaTest_eval (gs : List (List (Fin 10))) (frac : List (Fin 10)) (S : List Char)
    (hg : gs ≠ []) (hgs : ∀ g ∈ gs, g ≠ []) (hS : sfxOk S) :
    intCommaTest ⟨intRender gs ++ (fracPart frac ++ S)⟩ = S.isEmpty := by
  have hall : ∀ c ∈ intRender gs, (fun c => Char.isDigit c || c == ',') c = true := by
    intro c hc
    rcases (intRender_props gs c hc).1 with h | h
    · simp [h]
    · simp [h]
  have htk : (fracPart frac ++ S).takeWhile (fun c => Char.isDigit c || c == ',') = [] := by
    by_cases hf : frac = []
    · rw [show fracPart frac = [] from by simp [fracPart, hf], List.nil_append]
      cases S with
      | nil => rfl
      | cons c t =>
        apply List.takeWhile_cons_of_neg
        obtain ⟨h1, h2, _, _⟩ := hS c (by simp)
        simp [h1, h2]
    · rw [show fracPart frac = '.' :: digitsStr frac from by simp [fracPart, hf],
        List.cons_append]
      apply List.takeWhile_cons_of_neg
      decide
  have hdr : (fracPart frac ++ S).dropWhile (fun c => Char.isDigit c || c == ',')
      = fracPart frac ++ S := by
    by_cases hf : frac = []
    · rw [show fracPart frac = [] from by simp [fracPart, hf], List.nil_append]
      cases S with
      | nil => rfl
      | cons c t =>
        apply List.dropWhile_cons_of_neg
        obtain ⟨h1, h2, _, _⟩ := hS c (by simp)
        simp [h1, h2]
    · rw [show fracPart frac = '.' :: digitsStr frac from by simp [fracPart, hf],
        List.cons_append]
      apply List.dropWhile_cons_of_neg
      decide
  simp only [intCommaTest]
  rw [takeWhile_append_of_all _ _ _ hall, htk, List.append_nil,
    dropWhile_append_of_all _ _ _ hall, hdr]
  have hipne : (!(intRender gs).isEmpty) = true := by
    rw [Bool.not_eq_true', ← Bool.not_eq_true, List.isEmpty_iff]
    exact fun h => intRender_ne_nil hg hgs h
  rw [hipne, Bool.true_and]
  by_cases hf : frac = []
  · rw [show fracPart frac = [] from by simp [fracPart, hf], List.nil_append]
    cases S with
    | nil => rfl
    | cons c t =>
      simp only [List.isEmpty_cons, Bool.false_or, List.head?_cons]
      have hcne : ((some c == some '.') : Bool) = false := by
        rw [beq_eq_false_iff_ne]
        intro h
        exact (hS c (by simp)).2.2.1 (Option.some.inj h)
      rw [hcne, Bool.false_and, Bool.false_and]
  · rw [show fracPart frac = '.' :: digitsStr frac from by simp [fracPart, hf],
      List.cons_append]
    simp only [List.isEmpty_cons, Bool.false_or, List.head?_cons, List.tail_cons]
    rw [show ((some '.' == some '.') : Bool) = true from by decide, Bool.true_and]
    have hne2 : (!(digitsStr frac ++ S).isEmpty) = true := by
      rw [Bool.not_eq_true', ← Bool.not_eq_true, List.isEmpty_iff]
      intro h
      exact digitsStr_ne_nil hf (List.append_eq_nil.mp h).1
    rw [hne2, Bool.true_and]
    cases S with
    | nil =>
      rw [List.append_nil]
      simp only [List.isEmpty_nil]
      exact List.all_eq_true.mpr (fun c hc => (digitsStr_props frac c hc).1)
    | cons c t =>
      have hallf : (digitsStr frac ++ c :: t).all Char.isDigit = false := by
        rw [← Bool.not_eq_true, List.all_eq_true]
        intro hcon
        have h1 := hcon c (by simp)
        rw [(hS c (by simp)).1] at h1
        exact Bool.noConfusion h1
      rw [hallf]
      simp

/-- Character classes of the rendered fractional part. -/
theorem fracPart_props (frac : List (Fin 10)) :
    ∀ c ∈ fracPart frac, c ≠ ',' ∧ jsSpace c = false ∧ isAmtChar c = true := by
  intro c hc
  by_cases hf : frac = []
  · simp [fracPart, hf] at hc
  · rw [show fracPart frac = '.' :: digitsStr frac from by simp [fracPart, hf]] at hc
    rcases List.mem_cons.mp hc with h | h
    · subst h
      exact ⟨by decide, by decide, by decide⟩
    · have := digitsStr_props frac c h
      exact ⟨this.2.1, this.2.2.2.1, this.2.2.2.2⟩

/-- `jsTrim` is the identity on whitespace-free strings. -/
theorem jsTrim_of_no_space (l : List Char) (h : ∀ c ∈ l, jsSpace c = false) :
    jsTrim ⟨l⟩ = ⟨l⟩ := by
  simp only [jsTrim]
  rw [dropWhile_eq_self_of_all_neg _ _ h,
    dropWhile_eq_self_of_all_neg _ _ (fun c hc => h c (List.mem_reverse.mp hc)),
    List.reverse_reverse]

/-- Comma-stripping and trimming a rendered numeral-plus-suffix yields the
separator-free digit run followed by the unchanged fraction and suffix. -/
theorem normalize_input_eval (gs : List (List (Fin 10))) (frac : List (Fin 10))
    (S : List Char) (hS : sfxOk S) :
    jsTrim (stripCommas ⟨intRender gs ++ (fracPart frac ++ S)⟩)
      = ⟨digitsStr gs.flatten ++ (fracPart frac ++ S)⟩ := by
  have hfil : (intRender gs ++ (fracPart frac ++ S)).filter (fun c => c ≠ ',')
      = digitsStr gs.flatten ++ (fracPart frac ++ S) := by
    rw [List.filter_append, List.filter_append, filter_intRender]
    congr 1
    congr 1
    · exact List.filter_eq_self.mpr (fun c hc => by simpa using (fracPart_props frac c hc).1)
    · exact List.filter_eq_self.mpr (fun c hc => by simpa using (hS c hc).2.1)
  have hstrip : stripCommas ⟨intRender gs ++ (fracPart frac ++ S)⟩
      = ⟨digitsStr gs.flatten ++ (fracPart frac ++ S)⟩ := by
    simp only [stripCommas]
    exact congrArg String.mk hfil
  rw [hstrip]
  apply jsTrim_of_no_space
  exact numeral_no_space gs.flatten frac S hS

/-- `stripCommas` is the identity on comma-free strings. -/
theorem stripCommas_of_no_comma (l : List Char) (h : ∀ c ∈ l, c ≠ ',') :
    stripCommas ⟨l⟩ = ⟨l⟩ := by
  simp only [stripCommas]
  exact congrArg String.mk (List.filter_eq_self.mpr (fun c hc => by simpa using h c hc))

/-- Evaluation of `normalizeNum` on any rendered numeral followed by any
magnitude suffix: the result is the binary64 rounding of the numeral's
value, scaled (for a nonempty suffix) by one binary64 multiplication. -/
theorem normalizeNum_eval (gs : List (List (Fin 10))) (frac : List (Fin 10))
    (sfx : Magnitude) (hg : gs ≠ []) (hgs : ∀ g ∈ gs, g ≠ []) :
    normalizeNum (numeralStr gs frac ++ sfx.render)
      = some (sfx.apply (roundDouble (numeralVal gs frac))) := by
  have hS := magnitude_sfxOk sfx
  have hfl : gs.flatten ≠ [] := flatten_ne_nil hg hgs
  have hdata : (numeralStr gs frac ++ sfx.render).data
      = intRender gs ++ (fracPart frac ++ sfx.render.data) := by
    show (intRender gs ++ fracPart frac) ++ sfx.render.data = _
    rw [List.append_assoc]
  have hn : jsTrim (stripCommas (numeralStr gs frac ++ sfx.render))
      = ⟨digitsStr gs.flatten ++ (fracPart frac ++ sfx.render.data)⟩ := by
    have : stripCommas (numeralStr gs frac ++ sfx.render)
        = stripCommas ⟨intRender gs ++ (fracPart frac ++ sfx.render.data)⟩ := by
      simp only [stripCommas, hdata]
    rw [this]
    exact normalize_input_eval gs frac sfx.render.data hS
  have hicm := intCommaTest_eval [gs.flatten] frac sfx.render.data
    (by simp) (by simpa using hfl) hS
  rw [show intRender [gs.flatten] = digitsStr gs.flatten from rfl] at hicm
  have hpf := jsParseFloat_eval gs.flatten frac sfx.render.data hfl hS
  have hipi := jsParseInt_eval gs.flatten hfl
  simp only [normalizeNum, hn]
  cases sfx with
  | one =>
    by_cases hf : frac = []
    · have hD : fracPart frac ++ Magnitude.one.render.data = [] := by
        simp [fracPart, hf, Magnitude.render]
      rw [hD, List.append_nil]
      rw [if_pos (isAllDigits_digitsStr gs.flatten hfl)]
      rw [hipi]
      congr 1
      simp [Magnitude.apply, numeralVal, hf, natOfDigits]
    · rw [if_neg (by
        rw [isAllDigits_false gs.flatten frac _ hS (Or.inl hf)]
        exact Bool.noConfusion)]
      rw [if_neg (by
        rw [magnitudeTest_eval _ gs.flatten frac _ hfl hS]
        decide)]
      rw [if_neg (by
        rw [magnitudeTest_eval _ gs.flatten frac _ hfl hS]
        decide)]
      rw [if_pos (by rw [hicm]; decide)]
      rw [stripCommas_of_no_comma _ (by
        intro c hc
        rcases List.mem_append.mp hc with h | h
        · exact (digitsStr_props _ c h).2.1
        rcases List.mem_append.mp h with h | h
        · exact (fracPart_props frac c h).1
        · exact (hS c h).2.1)]
      rw [hpf]
      simp [Magnitude.apply, numeralVal]
  | kLower =>
    rw [if_neg (by
      rw [isAllDigits_false gs.flatten frac _ hS (Or.inr (by decide))]
      exact Bool.noConfusion)]
    rw [if_neg (by
      rw [magnitudeTest_eval _ gs.flatten frac _ hfl hS]
      decide)]
    rw [if_pos (by
      rw [magnitudeTest_eval _ gs.flatten frac _ hfl hS]
      decide)]
    rw [hpf]
    simp [Magnitude.apply, numeralVal]
  | kUpper =>
    rw [if_neg (by
      rw [isAllDigits_false gs.flatten frac _ hS (Or.inr (by decide))]
      exact Bool.noConfusion)]
    rw [if_neg (by
      rw [magnitudeTest_eval _ gs.flatten frac _ hfl hS]
      decide)]
    rw [if_pos (by
      rw [magnitudeTest_eval _ gs.flatten frac _ hfl hS]
      decide)]
    rw [hpf]
    simp [Magnitude.apply, numeralVal]
  | thousand =>
    rw [if_neg (by
      rw [isAllDigits_false gs.flatten frac _ hS (Or.inr (by decide))]
      exact Bool.noConfusion)]
    rw [if_neg (by
      rw [magnitudeTest_eval _ gs.flatten frac _ hfl hS]
      decide)]
    rw [if_pos (by
      rw [magnitudeTest_eval _ gs.flatten frac _ hfl hS]
      decide)]
    rw [hpf]
    simp [Magnitude.apply, numeralVal]
  | mLower =>
    rw [if_neg (by
      rw [isAllDigits_false gs.flatten frac _ hS (Or.inr (by decide))]
      exact Bool.noConfusion)]
    rw [if_pos (by
      rw [magnitudeTest_eval _ gs.flatten frac _ hfl hS]
      decide)]
    rw [hpf]
    simp [Magnitude.apply, numeralVal]
  | mUpper =>
    rw [if_neg (by
      rw [isAllDigits_false gs.flatten frac _ hS (Or.inr (by decide))]
      exact Bool.noConfusion)]
    rw [if_pos (by
      rw [magnitudeTest_eval _ gs.flatten frac _ hfl hS]
      decide)]
    rw [hpf]
    simp [Magnitude.apply, numeralVal]
  | million =>
    rw [if_neg (by
      rw [isAllDigits_false gs.flatten frac _ hS (Or.inr (by decide))]
      exact Bool.noConfusion)]
    rw [if_pos (by
      rw [magnitudeTest_eval _ gs.flatten frac _ hfl hS]
      decide)]
    rw [hpf]
    simp [Magnitude.apply, numeralVal]

/-- Evaluation of the dollar-regex scan on `"$" ++ numeral ++ suffix`: the
first capture is the full amount run (digits, commas, dots) and the second
is the suffix match. -/
theorem parseDollarCore_eval (gs : List (List (Fin 10))) (frac : List (Fin 10))
    (S : List Char) (hg : gs ≠ []) (hgs : ∀ g ∈ gs, g ≠ []) (hS : sfxOk S) :
    parseDollarCore ('$' :: (intRender gs ++ (fracPart frac ++ S)))
      = some (intRender gs ++ fracPart frac, ciSuffix S) := by
  have hamtI : ∀ c ∈ intRender gs, isAmtChar c = true :=
    fun c hc => (intRender_props gs c hc).2.2.2
  have hamtF : ∀ c ∈ fracPart frac, isAmtChar c = true :=
    fun c hc => (fracPart_props frac c hc).2.2
  have htk : (intRender gs ++ (fracPart frac ++ S)).takeWhile isAmtChar
      = intRender gs ++ fracPart frac := by
    rw [takeWhile_append_of_all _ _ _ hamtI, takeWhile_append_of_all _ _ _ hamtF,
      takeWhile_eq_nil_of_all_neg _ S (sfxOk_not_amt hS), List.append_nil]
  have hdrop : ((intRender gs ++ (fracPart frac ++ S)).drop
      (intRender gs ++ fracPart frac).length).dropWhile jsSpace = S := by
    rw [← List.append_assoc, List.drop_left]
    exact dropWhile_eq_self_of_all_neg _ S (fun c hc => (hS c hc).2.2.2)
  simp only [parseDollarCore]
  rw [if_pos trivial, htk]
  rw [if_neg (by
    rw [List.isEmpty_iff]
    intro h
    exact intRender_ne_nil hg hgs (List.append_eq_nil.mp h).1)]
  rw [hdrop]

/-- The first capture of the dollar regex, stripped of commas, parses to
the binary64 rounding of the numeral value. -/
theorem parseDollar_capture_eval (gs : List (List (Fin 10))) (frac : List (Fin 10))
    (hfl : gs.flatten ≠ []) :
    jsParseFloat ⟨(intRender gs ++ fracPart frac).filter (fun c => c ≠ ',')⟩
      = some (roundDouble (numeralVal gs frac)) := by
  have hfil : (intRender gs ++ fracPart frac).filter (fun c => c ≠ ',')
      = digitsStr gs.flatten ++ fracPart frac := by
    rw [List.filter_append, filter_intRender,
      List.filter_eq_self.mpr (fun c hc => by simpa using (fracPart_props frac c hc).1)]
  have h := jsParseFloat_eval gs.flatten frac [] hfl
    (fun c hc => absurd hc (List.not_mem_nil c))
  rw [List.append_nil] at h
  rw [hfil, h]
  rfl

/-- Evaluation of `parseDollar` on `"$" ++ numeral ++ suffix`. -/
theorem parseDollar_eval_render (gs : List (List (Fin 10))) (frac : List (Fin 10))
    (sfx : Magnitude) (hg : gs ≠ []) (hgs : ∀ g ∈ gs, g ≠ []) :
    parseDollar ("$" ++ numeralStr gs frac ++ sfx.render)
      = some (some (sfx.apply (roundDouble (numeralVal gs frac)))) := by
  have hfl : gs.flatten ≠ [] := flatten_ne_nil hg hgs
  have hS := magnitude_sfxOk sfx
  have hcore := parseDollarCore_eval gs frac sfx.render.data hg hgs hS
  have hv := parseDollar_capture_eval gs frac hfl
  have hdata : ("$" ++ numeralStr gs frac ++ sfx.render).data
      = '$' :: (intRender gs ++ (fracPart frac ++ sfx.render.data)) := by
    simp only [String.data_append]
    show ('$' :: (intRender gs ++ fracPart frac)) ++ sfx.render.data = _
    simp [List.append_assoc]
  simp only [parseDollar, hdata, hcore]
  rw [hv]
  cases sfx with
  | one =>
    rw [show ciSuffix (Magnitude.one.render.data) = none from by decide]
    simp [applySuffix, Magnitude.apply]
  | kLower =>
    rw [show ciSuffix (Magnitude.kLower.render.data) = some ['k'] from by decide]
    simp only [Option.map_some', applySuffix]
    rw [if_neg (by decide), if_pos (by decide)]
    simp [Magnitude.apply]
  | kUpper =>
    rw [show ciSuffix (Magnitude.kUpper.render.data) = some ['K'] from by decide]
    simp only [Option.map_some', applySuffix]
    rw [if_neg (by decide), if_pos (by decide)]
    simp [Magnitude.apply]
  | thousand =>
    rw [show ciSuffix (Magnitude.thousand.render.data) = some "thousand".data from by
      decide]
    simp only [Option.map_some', applySuffix]
    rw [if_neg (by decide), if_pos (by decide)]
    simp [Magnitude.apply]
  | mLower =>
    rw [show ciSuffix (Magnitude.mLower.render.data) = some ['m'] from by decide]
    simp only [Option.map_some', applySuffix]
    rw [if_pos (by decide)]
    simp [Magnitude.apply]
  | mUpper =>
    rw [show ciSuffix (Magnitude.mUpper.render.data) = some ['M'] from by decide]
    simp only [Option.map_some', applySuffix]
    rw [if_pos (by decide)]
    simp [Magnitude.apply]
  | million =>
    rw [show ciSuffix (Magnitude.million.render.data) = some "million".data from by
      decide]
    simp only [Option.map_some', applySuffix]
    rw [if_pos (by decide)]
    simp [Magnitude.apply]

/-- C3 (amended): for every numeral (integer or decimal, with or without
thousands separators) and every magnitude suffix in
`{none, k, K, thousand, M, m, million}`, normalizing the token
`"<N><suffix>"` yields the IEEE-754 binary64 result — the correctly
rounded parse `roundDouble N`, followed (when a suffix is present) by one
binary64 multiplication by the suffix multiplier — for both the
standalone numeric normalizer (`normalizeNum`) and the currency parser
(`parseDollar` on `"$<N><suffix>"`).  This equals `N × multiplier`
exactly only when both roundings are exact; see
`numeral_magnitude_counterexample`. -/
theorem numeral_magnitude_rounded (gs : List (List (Fin 10))) (frac : List (Fin 10))
    (sfx : Magnitude) (hg : gs ≠ []) (hgs : ∀ g ∈ gs, g ≠ []) :
    normalizeNum (numeralStr gs frac ++ sfx.render)
        = some (sfx.apply (roundDouble (numeralVal gs frac))) ∧
      parseDollar ("$" ++ numeralStr gs frac ++ sfx.render)
        = some (some (sfx.apply (roundDouble (numeralVal gs frac)))) :=
  ⟨normalizeNum_eval gs frac sfx hg hgs, parseDollar_eval_render gs frac sfx hg hgs⟩

/-- Witness for the amended C3 at the concrete token `"1,234.5thousand"`
(both roundings are exact there, so the binary64 result is the exact
1234500). -/
theorem numeral_magnitude_rounded_witness :
    normalizeNum "1,234.5thousand" = some ((1234500 : ℚ)) ∧
      parseDollar "$1,234.5thousand" = some (some ((1234500 : ℚ))) := by
  have h := numeral_magnitude_rounded [[1], [2, 3, 4]] [5] Magnitude.thousand
    (by decide) (by decide)
  have e1 : numeralStr [[1], [2, 3, 4]] [5] ++ Magnitude.thousand.render
      = "1,234.5thousand" := by decide
  have e2 : ("$" ++ numeralStr [[1], [2, 3, 4]] [5] ++ Magnitude.thousand.render)
      = "$1,234.5thousand" := by decide
  have e3 : Magnitude.thousand.apply (roundDouble (numeralVal [[1], [2, 3, 4]] [5]))
      = (1234500 : ℚ) := by decide
  rw [e1, e2, e3] at h
  exact h

/-- Counterexample to C3 as stated: for the numeral `1.005` with suffix
`thousand`, `N × multiplier` is exactly `1005`, but the program parses
`1.005` into binary64 (slightly below `1.005`) and multiplies in binary64,
yielding `1004.9999999999999` (exactly `8840073487319039 / 2^43`), not
`1005` — in both the normalizer and the currency parser. -/
theorem numeral_magnitude_counterexample :
    numeralVal [[1]] [0, 0, 5] * Magnitude.thousand.mult = 1005 ∧
      numeralStr [[1]] [0, 0, 5] ++ Magnitude.thousand.render = "1.005thousand" ∧
      normalizeNum "1.005thousand" ≠ some ((1005 : ℚ)) ∧
      normalizeNum "1.005thousand"
        = some ((8840073487319039 : ℚ) / 8796093022208) ∧
      parseDollar "$1.005thousand" ≠ some (some ((1005 : ℚ))) := by decide


/-! ### Context key builder (`makeContextKey`) -/

/-- Collapse every whitespace run to a single space
(`replace(/\s+/g, " ")`).  Fueled structural recursion; each step consumes
at least one character, so `l.length + 1` fuel suffices. -/
def collapseWsGo : Nat → List Char → List Char
  | 0, _ => []
  | _ + 1, [] => []
  | fuel + 1, c :: rest =>
    if jsSpace c then ' ' :: collapseWsGo fuel (rest.dropWhile jsSpace)
    else c :: collapseWsGo fuel rest

/-- `replace(/\s+/g, " ")` on a character list. -/
def collapseWs (l : List Char) : List Char := collapseWsGo (l.length + 1) l

/-- `trim()` on a character list. -/
def trimChars (l : List Char) : List Char :=
  ((l.dropWhile jsSpace).reverse.dropWhile jsSpace).reverse

/-- Length of a match of the dollar-masking pattern
`\$[\d,.]+(?:\s*(?:million|M|m|thousand|k|K))?` (with the `i` flag) at the
head of `cs`, if any: a `$`, a maximal nonempty `[\d,.]` run, then
optionally whitespace plus a case-insensitive suffix word.  The suffix
alternatives start with letters, so the greedy `\s*` never backtracks
productively and the maximal-skip scan is exact. -/
def dollarMaskLen (cs : List Char) : Option Nat :=
  match cs with
  | c :: rest =>
    if c = '$' then
      let amt := rest.takeWhile isAmtChar
      if amt.isEmpty then none
      else
        let after := rest.drop amt.length
        let sp := after.takeWhile jsSpace
        match ciSuffix (after.drop sp.length) with
        | some sfx => some (1 + amt.length + sp.length + sfx.length)
        | none => some (1 + amt.length)
    else none
  | [] => none

/-- Does a `\b` word boundary hold between a character of word-status
`lastWord` and the position at the head of `cs` (end of input counts as
non-word)? -/
def boundaryAfter (lastWord : Bool) (cs : List Char) : Bool :=
  match cs with
  | [] => lastWord
  | c :: _ => lastWord != isWordChar c

/-- The case-sensitive suffix alternatives of the numeral-masking pattern,
in the regex's alternation order. -/
def numAlts : List (List Char) :=
  ["million".data, "M".data, "m".data, "thousand".data, "k".data, "K".data]

/-- Try each alternative as a case-sensitive literal at the head of `cs`;
an alternative succeeds only if a word boundary follows it (every
alternative ends in a word character, so the boundary demands a non-word
continuation), otherwise the engine backtracks to the next alternative. -/
def tryAlts (alts : List (List Char)) (cs : List Char) : Option Nat :=
  match alts with
  | [] => none
  | a :: rest =>
    if cs.take a.length == a && boundaryAfter true (cs.drop a.length) then some a.length
    else tryAlts rest cs

/-- Greedy backtracking over the run length of the numeral-masking pattern
`\b\d[\d,.]*(?:\s*(?:million|M|m|thousand|k|K))?\b`: for each candidate
run length (longest first) try the suffix group and then the empty group,
each followed by the closing `\b`. -/
def numBacktrack (run : List Char) (cs : List Char) : Nat → Option Nat
  | 0 => none
  | k + 1 =>
    let after := cs.drop (k + 1)
    let sp := after.takeWhile jsSpace
    match tryAlts numAlts (after.drop sp.length) with
    | some alen => some (k + 1 + sp.length + alen)
    | none =>
      if boundaryAfter (isWordChar (run.getD k '0')) after then some (k + 1)
      else numBacktrack run cs k

/-- Match length of the numeral-masking pattern at the head of `cs`, where
`prev` is the preceding original character (for the leading `\b`; the
first matched character is a digit, hence a word character, so the
boundary requires a non-word or absent predecessor). -/
def numMatchAtLen (prev : Option Char) (cs : List Char) : Option Nat :=
  match cs with
  | c :: rest =>
    if c.isDigit && !(match prev with | some p => isWordChar p | none => false) then
      let run := c :: rest.takeWhile isAmtChar
      numBacktrack run cs run.length
    else none
  | [] => none

/-- Global regex replacement: scan left to right, tracking the previous
original character (for `\b` assertions); on a match of length `n` emit
the replacement and resume after the matched span, as the JS `lastIndex`
semantics do.  Fueled structural recursion (`l.length + 1` suffices). -/
def replaceScan (matchAt : Option Char → List Char → Option Nat) (repl : List Char) :
    Nat → Option Char → List Char → List Char
  | 0, _, _ => []
  | _ + 1, _, [] => []
  | fuel + 1, prev, c :: rest =>
    match matchAt prev (c :: rest) with
    | some n =>
      if n = 0 then c :: replaceScan matchAt repl fuel (some c) rest
      else repl ++ replaceScan matchAt repl fuel
        (some ((c :: rest).getD (n - 1) c)) (rest.drop (n - 1))
    | none => c :: replaceScan matchAt repl fuel (some c) rest

/-- `window.replace(/\$[\d,.]+(?:\s*(?:million|M|m|thousand|k|K))?/gi, "$#")`. -/
def maskDollar (cs : List Char) : List Char :=
  replaceScan (fun _ s => dollarMaskLen s) "$#".data (cs.length + 1) none cs

/-- `window.replace(/\b\d[\d,.]*(?:\s*(?:million|M|m|thousand|k|K))?\b/g, "#")`. -/
def maskNum (cs : List Char) : List Char :=
  replaceScan numMatchAtLen "#".data (cs.length + 1) none cs

/-- Characters kept by the final `[^a-z0-9#\s]` strip. -/
def isKeyChar (c : Char) : Bool :=
  ('a' ≤ c && c ≤ 'z') || c.isDigit || c == '#' || jsSpace c

/-- One character of `replace(/[^a-z0-9#\s]/g, " ")`. -/
def stripChar (c : Char) : Char := if isKeyChar c then c else ' '

/-- `makeContextKey` from the source: slice a window of up to 55 characters
before and 25 after the match position, collapse and trim whitespace, mask
dollar amounts with `"$#"`, mask standalone numerals with `"#"`, lowercase,
strip everything outside `[a-z0-9#\s]`, collapse and trim again, and keep
the trailing 70 characters.  `Math.max(0, pos - len)` is ℕ subtraction. -/
def makeContextKey (text : String) (pos : Nat) : String :=
  let cs := text.data
  let start := pos - 55
  let stop := min cs.length (pos + 25)
  let window := (cs.drop start).take (stop - start)
  let w1 := trimChars (collapseWs window)
  let w2 := maskDollar w1
  let w3 := maskNum w2
  let w4 := (w3.map Char.toLower).map stripChar
  let w5 := trimChars (collapseWs w4)
  ⟨w5.drop (w5.length - 70)⟩

/-- Every character of a collapsed list is either a space or a non-space
character of the input. -/
theorem mem_collapseWsGo : ∀ (fuel : Nat) (l : List Char), ∀ c ∈ collapseWsGo fuel l,
    c = ' ' ∨ (c ∈ l ∧ jsSpace c = false) := by
  intro fuel
  induction fuel with
  | zero => intro l c hc; simp [collapseWsGo] at hc
  | succ n ih =>
    intro l c hc
    cases l with
    | nil => simp [collapseWsGo] at hc
    | cons a rest =>
      by_cases ha : jsSpace a = true
      · rw [show collapseWsGo (n + 1) (a :: rest) = ' ' :: collapseWsGo n (rest.dropWhile jsSpace)
          from by simp [collapseWsGo, ha]] at hc
        rcases List.mem_cons.mp hc with h | h
        · exact Or.inl h
        · rcases ih _ c h with h2 | ⟨h2, h3⟩
          · exact Or.inl h2
          · exact Or.inr ⟨List.mem_cons_of_mem a ((List.dropWhile_sublist _).mem h2), h3⟩
      · rw [show collapseWsGo (n + 1) (a :: rest) = a :: collapseWsGo n rest
          from by simp [collapseWsGo, ha]] at hc
        rcases List.mem_cons.mp hc with h | h
        · refine Or.inr ⟨?_, ?_⟩
          · rw [h]
            exact List.mem_cons_self a rest
          · rw [h]
            simpa using ha
        · rcases ih _ c h with h2 | ⟨h2, h3⟩
          · exact Or.inl h2
          · exact Or.inr ⟨List.mem_cons_of_mem a h2, h3⟩

theorem mem_trimChars {l : List Char} {c : Char} (h : c ∈ trimChars l) : c ∈ l := by
  simp only [trimChars, List.mem_reverse] at h
  have h1 := (List.dropWhile_sublist (l := (l.dropWhile jsSpace).reverse) jsSpace).mem h
  rw [List.mem_reverse] at h1
  exact (List.dropWhile_sublist jsSpace).mem h1

/-- C2 (amended): every character of a context key is the placeholder, a
space, a digit, or a lowercase letter; in particular a key never contains
`$` and hence no literal dollar-amount substring. -/
theorem makeContextKey_chars (text : String) (pos : Nat) :
    ∀ c ∈ (makeContextKey text pos).data,
      c = '#' ∨ c = ' ' ∨ c.isDigit = true ∨ ('a' ≤ c ∧ c ≤ 'z') := by
  intro c hc
  simp only [makeContextKey] at hc
  have h1 : c ∈ trimChars (collapseWs
      (((maskNum (maskDollar (trimChars (collapseWs
        ((text.data.drop (pos - 55)).take (min text.data.length (pos + 25) - (pos - 55))))))).map
        Char.toLower).map stripChar)) := (List.drop_sublist _ _).mem hc
  have h2 := mem_collapseWsGo _ _ c (mem_trimChars h1)
  rcases h2 with h | ⟨hmem, hns⟩
  · exact Or.inr (Or.inl h)
  · obtain ⟨d, _, rfl⟩ := List.mem_map.mp hmem
    by_cases hk : isKeyChar d = true
    · rw [show stripChar d = d from by simp [stripChar, hk]] at hns ⊢
      simp only [isKeyChar] at hk
      rw [Bool.or_eq_true, Bool.or_eq_true, Bool.or_eq_true, Bool.and_eq_true] at hk
      rcases hk with ((⟨hA1, hA2⟩ | hB) | hC) | hD
      · exact Or.inr (Or.inr (Or.inr ⟨by simpa using hA1, by simpa using hA2⟩))
      · exact Or.inr (Or.inr (Or.inl hB))
      · exact Or.inl (by simpa using hC)
      · rw [hD] at hns
        exact Bool.noConfusion hns
    · rw [show stripChar d = ' ' from by simp [stripChar, hk]]
      exact Or.inr (Or.inl rfl)

/-- Witness for the amended C2 theorem at a concrete key character. -/
theorem makeContextKey_chars_witness :
    'h' = '#' ∨ 'h' = ' ' ∨ Char.isDigit 'h' = true ∨ ('a' ≤ 'h' ∧ 'h' ≤ 'z') :=
  makeContextKey_chars "hello" 0 'h' (by decide)

/-- Counterexample to C2 as stated: a digit sequence embedded in an
alphanumeric word (here `abc123`) is not preceded by a word boundary, so
the numeral mask leaves it untouched and the key retains raw digits. -/
theorem makeContextKey_digits_counterexample :
    ((makeContextKey "see appendix abc123 of the document" 25).data.any Char.isDigit) = true
      := by decide

/-! ### Fact extraction (`extractFacts`) -/

/-- One extracted assertion, as pushed by `extractFacts`: a monetary
(`type = "dollar"`) or unit-count (`type = "count"`) record.  Dollar facts
carry no `unit` field in the source, modelled as `none`. -/
structure Fact where
  type : String
  key : String
  value : Option ℚ
  unit : Option String
  raw : String
  file : String
deriving DecidableEq

/-- JS `<` between a number and a constant: `NaN < b` is `false`. -/
def jsLtB : Option ℚ → ℚ → Bool
  | none, _ => false
  | some v, b => v < b

/-- Substring occurrence test (a `RegExp.test` with a plain-word
alternation reduces to this). -/
def containsSub (hay pat : List Char) : Bool :=
  hay.tails.any (fun t => t.take pat.length == pat)

/-- The extraction-time false-positive vocabulary
(`/replace|regex|exec|match|substr|char/.test(key)`). -/
def codeLike (key : String) : Bool :=
  ["replace", "regex", "exec", "match", "substr", "char"].any
    (fun t => containsSub key.data t.data)

/-- Literal alternation with no following assertion (the extraction
regex's optional suffix): the first alternative that is a prefix wins. -/
def tryLits (alts : List (List Char)) (cs : List Char) : Option Nat :=
  match alts with
  | [] => none
  | a :: rest => if cs.take a.length == a then some a.length else tryLits rest cs

/-- Match length of the extraction pattern
`\$[\d,]+(?:\.\d+)?(?:\s*(?:million|M|m|thousand|k|K))?` (case-sensitive)
at the head of `cs`: a `$`, a nonempty `[\d,]` run, an optional dot with at
least one digit, and an optional whitespace-plus-suffix group. -/
def dollarExtLen (cs : List Char) : Option Nat :=
  match cs with
  | c :: rest =>
    if c = '$' then
      let ip := rest.takeWhile (fun c => c.isDigit || c == ',')
      if ip.isEmpty then none
      else
        let r1 := rest.drop ip.length
        let fr := if r1.head? = some '.' then
            let fp := r1.tail.takeWhile Char.isDigit
            if fp.isEmpty then 0 else 1 + fp.length
          else 0
        let r2 := r1.drop fr
        let sp := r2.takeWhile jsSpace
        let sfx := match tryLits numAlts (r2.drop sp.length) with
          | some n => sp.length + n
          | none => 0
        some (1 + ip.length + fr + sfx)
    else none
  | [] => none

/-- Global scan with `lastIndex` semantics: record `(index, payload)` for
each match and resume right after it; `prev` is the original character
before the current position (for `\b` assertions).  Fueled structural
recursion (`l.length + 1` suffices: every step consumes a character). -/
def scanWith {α : Type} (matchAt : Option Char → List Char → Option α) (len : α → Nat) :
    Nat → Option Char → Nat → List Char → List (Nat × α)
  | 0, _, _, _ => []
  | _ + 1, _, _, [] => []
  | fuel + 1, prev, i, c :: rest =>
    match matchAt prev (c :: rest) with
    | some a =>
      let n := len a
      if n = 0 then scanWith matchAt len fuel (some c) (i + 1) rest
      else (i, a) :: scanWith matchAt len fuel
        (some ((c :: rest).getD (n - 1) c)) (i + n) (rest.drop (n - 1))
    | none => scanWith matchAt len fuel (some c) (i + 1) rest

/-- Case-insensitive unit word with optional plural `s`, followed by `\b`:
the greedy `s?` is tried first; a failed boundary after the `s` cannot be
repaired by dropping it (two word characters adjoin), so the alternative
fails, exactly as the backtracking engine behaves. -/
def tryPlural (base : List Char) (cs : List Char) : Option Nat :=
  if startsWithCI base cs then
    let rest := cs.drop base.length
    match rest with
    | c :: r2 =>
      if (c == 's' || c == 'S') && boundaryAfter true r2 then some (base.length + 1)
      else if boundaryAfter true rest then some base.length
      else none
    | [] => some base.length
  else none

/-- The `fleet` alternative (no plural). -/
def tryFleet (cs : List Char) : Option Nat :=
  if startsWithCI "fleet".data cs && boundaryAfter true (cs.drop 5) then some 5 else none

/-- The `grill\s+sites?` alternative. -/
def tryGrill (cs : List Char) : Option Nat :=
  if startsWithCI "grill".data cs then
    let rest := cs.drop 5
    let sp := rest.takeWhile jsSpace
    if sp.isEmpty then none
    else (tryPlural "site".data (rest.drop sp.length)).map (fun n => 5 + sp.length + n)
  else none

/-- The unit alternation of the count pattern, in the regex's order. -/
def unitMatchLen (cs : List Char) : Option Nat :=
  tryPlural "vehicle".data cs <|> tryPlural "site".data cs <|>
  tryPlural "unit".data cs <|> tryPlural "acre".data cs <|>
  tryPlural "metre".data cs <|> tryPlural "dog".data cs <|>
  tryGrill cs <|> tryFleet cs <|> tryPlural "year".data cs <|>
  tryPlural "month".data cs <|> tryPlural "treehouse".data cs <|>
  tryPlural "section".data cs <|> tryPlural "node".data cs

/-- Match of the count pattern
`\b(\d{1,4})\s*(vehicles?|sites?|units?|acres?|metres?|dogs?|grill\s+sites?|fleet|years?|months?|treehouses?|sections?|nodes?)\b`
(flags `gi`) at the head of `cs`: digit-run length, whitespace length and
unit length.  A digit run longer than four characters cannot match (every
shorter take leaves a digit where the letter-initial unit must start). -/
def countMatchAt (prev : Option Char) (cs : List Char) : Option (Nat × Nat × Nat) :=
  let prevWord := match prev with | some p => isWordChar p | none => false
  if prevWord then none
  else
    let ds := cs.takeWhile Char.isDigit
    if ds.isEmpty || ds.length > 4 then none
    else
      let rest := cs.drop ds.length
      let sp := rest.takeWhile jsSpace
      (unitMatchLen (rest.drop sp.length)).map (fun u => (ds.length, sp.length, u))

/-- The monetary-fact loop of `extractFacts`: run the dollar regex
globally, normalize each match with `parseDollar`, and discard matches
that fail to normalize (`value == null`), have an uninformative context
key (shorter than 12), or trip the code-like false-positive guard. -/
def dollarFacts (filePath : String) (text : String) : List Fact :=
  (scanWith (fun _ s => dollarExtLen s) id (text.data.length + 1) none 0 text.data).filterMap
    fun m =>
      let raw : String := ⟨(text.data.drop m.1).take m.2⟩
      match parseDollar raw with
      | none => none
      | some v =>
        let key := makeContextKey text m.1
        if key.length < 12 then none
        else if jsLtB v 10 && codeLike key then none
        else some { type := "dollar", key := key, value := v, unit := none,
                    raw := raw, file := filePath }

/-- The unit-count loop of `extractFacts`: run the count regex globally;
each match records the parsed small integer and the lowercased,
whitespace-normalized unit; keys shorter than 5 are discarded. -/
def countFacts (filePath : String) (text : String) : List Fact :=
  (scanWith countMatchAt (fun p => p.1 + p.2.1 + p.2.2)
      (text.data.length + 1) none 0 text.data).filterMap
    fun m =>
      let digits := (text.data.drop m.1).take m.2.1
      let unit : String :=
        ⟨collapseWs (lcStr ((text.data.drop (m.1 + m.2.1 + m.2.2.1)).take m.2.2.2))⟩
      let key := makeContextKey text m.1
      if key.length < 5 then none
      else some { type := "count", key := key, value := some (digitsVal digits : ℚ),
                  unit := some unit,
                  raw := ⟨(text.data.drop m.1).take (m.2.1 + m.2.2.1 + m.2.2.2)⟩,
                  file := filePath }

/-- The document size cap in megabytes. -/
def MAX_FILE_MB : Nat := 2

/-- `extractFacts` from the source; the file read is the collaborator
boundary, so the pure core receives the decoded text.  A document over the
size cap, an empty text, or a text containing a null byte (the binary
check) contributes no facts; no error is raised — the function is total. -/
def extractFacts (filePath : String) (text : String) : List Fact :=
  if text.utf8ByteSize > MAX_FILE_MB * 1024 * 1024 then []
  else if text == "" || text.data.contains '\x00' then []
  else dollarFacts filePath text ++ countFacts filePath text

/-- All facts pooled over a corpus of `(documentId, fullText)` pairs, in
traversal order (the `allFacts` accumulation of `main`). -/
def pooledFacts (corpus : List (String × String)) : List Fact :=
  (corpus.map (fun p => extractFacts p.1 p.2)).flatten

/-- C7: an oversized document (more than 2 MB of bytes) or one containing
a null byte yields the empty fact list; extraction is total, so the run
continues with no error. -/
theorem oversized_or_binary_skipped (f text : String)
    (h : text.utf8ByteSize > 2 * 1024 * 1024 ∨ '\x00' ∈ text.data) :
    extractFacts f text = [] := by
  unfold extractFacts
  by_cases hs : text.utf8ByteSize > MAX_FILE_MB * 1024 * 1024
  · rw [if_pos hs]
  · rcases h with h | h
    · exact absurd (by simpa [MAX_FILE_MB] using h) hs
    · rw [if_neg hs, if_pos (by
        rw [Bool.or_eq_true]
        exact Or.inr (by simpa [List.contains, List.elem_iff] using h))]

/-- Witness for C7 on a document containing a null byte. -/
theorem oversized_or_binary_skipped_witness :
    extractFacts "doc.md" "ab\x00cd" = [] :=
  oversized_or_binary_skipped "doc.md" "ab\x00cd" (Or.inr (by decide))

theorem countFacts_type {file text : String} {f : Fact}
    (h : f ∈ countFacts file text) : f.type = "count" := by
  obtain ⟨m, _, heq⟩ := List.mem_filterMap.mp h
  simp only at heq
  split at heq
  · exact absurd heq (by simp)
  · rw [Option.some.injEq] at heq
    rw [← heq]

theorem dollarFacts_guard {file text : String} {f : Fact}
    (h : f ∈ dollarFacts file text) :
    f.type = "dollar" ∧ (jsLtB f.value 10 && codeLike f.key) = false := by
  obtain ⟨m, _, heq⟩ := List.mem_filterMap.mp h
  simp only at heq
  split at heq
  · exact absurd heq (by simp)
  · split at heq
    · exact absurd heq (by simp)
    · split at heq
      · exact absurd heq (by simp)
      · rw [Option.some.injEq] at heq
        constructor
        · rw [← heq]
        · rw [← heq]
          simp only
          rename_i hguard
          simpa using hguard

/-- C6: a monetary fact whose value is under 10 and whose context key
contains a code-like token is discarded at extraction time: no pooled fact
is a dollar fact with value under 10 and a code-like key, so none can
appear in any conflict report (which only draws on pooled facts). -/
theorem code_like_monetary_discarded (corpus : List (String × String)) (f : Fact)
    (hmem : f ∈ pooledFacts corpus) (htype : f.type = "dollar")
    (hlt : jsLtB f.value 10 = true) : codeLike f.key = false := by
  obtain ⟨l, hl, hfl⟩ := List.mem_flatten.mp hmem
  obtain ⟨p, _, hpe⟩ := List.mem_map.mp hl
  rw [← hpe] at hfl
  unfold extractFacts at hfl
  split at hfl
  · exact absurd hfl (List.not_mem_nil f)
  · split at hfl
    · exact absurd hfl (List.not_mem_nil f)
    · rcases List.mem_append.mp hfl with h | h
      · have hg := (dollarFacts_guard h).2
        rw [hlt, Bool.true_and] at hg
        exact hg
      · rw [countFacts_type h] at htype
        exact absurd htype (by simp)

/-- Witness corpus for C6: a document with a `$5` (value under 10) in an
ordinary narrative context. -/
def c6Corpus : List (String × String) := [("a.md", "low cost of $5 paid for the item")]

/-- The fact that corpus extracts. -/
def c6Fact : Fact :=
  { type := "dollar", key := "low cost of # paid for the item", value := some 5,
    unit := none, raw := "$5", file := "a.md" }

/-- Witness for C6: the concrete fact is extracted, is monetary with value
under 10, and its key indeed carries no code-like token. -/
theorem code_like_monetary_discarded_witness :
    c6Fact ∈ pooledFacts c6Corpus ∧ codeLike c6Fact.key = false :=
  ⟨by decide, code_like_monetary_discarded c6Corpus c6Fact (by decide) (by decide) (by decide)⟩

/-- C1 (code evidence): on the document `"fund balance notes $, misc"` the
dollar regex matches `"$, m"`, `parseDollar` returns `NaN` (modelled
`none`) because the amount has no digits, the `value == null` check does
not catch `NaN`, and a Fact with a non-finite value is produced. -/
theorem nan_value_fact_extracted :
    (extractFacts "a.md" "fund balance notes $, misc").map Fact.value = [none] := by decide

/-! ### Conflict grouping and the report (`main`) -/

/-- Append `f` under its key in the insertion-ordered key map (a JS `Map`
whose values are pushed lists). -/
def pushByKey (m : List (String × List Fact)) (f : Fact) : List (String × List Fact) :=
  if m.any (fun p => p.1 == f.key) then
    m.map (fun p => if p.1 == f.key then (p.1, p.2 ++ [f]) else p)
  else m ++ [(f.key, [f])]

/-- The `byKey` map of `main`, keys in first-insertion order. -/
def buildByKey (facts : List Fact) : List (String × List Fact) :=
  facts.foldl pushByKey []

/-- Group a fact list by value in first-occurrence order (`byValue`; the
JS `Map` key semantics of SameValueZero make `NaN` a single key, matching
`none`). -/
def pushByValue (m : List (Option ℚ × List Fact)) (f : Fact) :
    List (Option ℚ × List Fact) :=
  if m.any (fun p => p.1 == f.value) then
    m.map (fun p => if p.1 == f.value then (p.1, p.2 ++ [f]) else p)
  else m ++ [(f.value, [f])]

def buildByValue (facts : List Fact) : List (Option ℚ × List Fact) :=
  facts.foldl pushByValue []

/-- One direct conflict record. -/
structure Conflict where
  key : String
  byValue : List (Option ℚ × List Fact)
  list : List Fact
deriving DecidableEq

/-- Direct conflicts: keys whose facts carry at least two distinct values
(`[...new Set(values)].length > 1`). -/
def directConflicts (facts : List Fact) : List Conflict :=
  (buildByKey facts).filterMap fun p =>
    if ((p.2.map Fact.value).dedup).length ≤ 1 then none
    else some { key := p.1, byValue := buildByValue p.2, list := p.2 }

/-- One similar-context conflict record. -/
structure CrossConflict where
  keys : List String
  byValue : List (Option ℚ × List Fact)
  facts : List Fact
deriving DecidableEq

/-- The cross-context guard vocabulary of `main` (line 178; note it lacks
`match`, unlike the extraction-time vocabulary). -/
def codeLikeCross (key : String) : Bool :=
  ["replace", "regex", "exec", "char", "substr"].any
    (fun t => containsSub key.data t.data)

/-- Similar-context clusters with at least two distinct values
(`crossGroupConflicts` in `main`), including the guard that drops clusters
whose values are all numbers under 20 when some key looks code-like
(`NaN < 20` is false, so a `NaN` value defeats the `every`). -/
def crossGroupConflicts (facts : List Fact) : List CrossConflict :=
  let byKey := buildByKey facts
  (groupSimilarKeys (byKey.map Prod.fst)).filterMap fun group =>
    if group.length ≤ 1 then none
    else
      let allInGroup : List Fact := group.flatMap fun k =>
        match byKey.find? (fun p => p.1 == k) with
        | some p => p.2
        | none => ([] : List Fact)
      let values := allInGroup.map Fact.value
      if values.dedup.length ≤ 1 then none
      else if values.all (fun v => jsLtB v 20) && group.any (fun k => codeLikeCross k) then
        none
      else some { keys := group, byValue := buildByValue allInGroup, facts := allInGroup }

/-- The cross-context conflicts that actually reach the report: the
rendering loop skips a cluster as soon as some reported direct conflict
covers one of its keys (`conflicts.some((c) => keys.includes(c.key))`). -/
def crossConflictsRendered (facts : List Fact) : List CrossConflict :=
  (crossGroupConflicts facts).filter fun g =>
    !(directConflicts facts).any (fun c => g.keys.contains c.key)

/-- First-occurrence deduplication (JS `Set` insertion order /
`indexOf`-based filter). -/
def dedupFirstAux {α : Type} [BEq α] (seen : List α) : List α → List α
  | [] => []
  | x :: xs =>
    if seen.contains x then dedupFirstAux seen xs
    else x :: dedupFirstAux (x :: seen) xs

def dedupFirst {α : Type} [BEq α] (l : List α) : List α := dedupFirstAux [] l

/-- Thousands grouping of a reversed digit list (lowest digit first). -/
def groupAuxRev : Nat → List Char → List Char
  | _, [] => []
  | 0, ds => ds
  | fuel + 1, ds =>
    if ds.length ≤ 3 then ds else ds.take 3 ++ ',' :: groupAuxRev fuel (ds.drop 3)

/-- Insert en-US thousands separators into a decimal digit string. -/
def groupDigits (s : List Char) : List Char :=
  (groupAuxRev s.length s.reverse).reverse

/-- `Number.toLocaleString()` under the host's default (en-US) locale:
grouped integer digits and at most three fraction digits (ties away from
zero), `"NaN"` for `NaN`.  Modelled for the value range this program
produces (terminating decimals well under the grouping-free 10^21). -/
def jsToLocaleString (v : Option ℚ) : String :=
  match v with
  | none => "NaN"
  | some q =>
    let neg := q < 0
    let aq := if neg then -q else q
    let scaled : ℤ := ⌊aq * 1000 + 1 / 2⌋
    let ip := scaled.toNat / 1000
    let fp := scaled.toNat % 1000
    let ipStr := groupDigits (toString ip).data
    let fpStr := if fp = 0 then ([] : List Char)
      else '.' :: ((toString (fp + 1000)).data.drop 1).reverse.dropWhile (fun c => c = '0')
        |>.reverse
    ⟨(if neg then ['-'] else []) ++ ipStr ++ fpStr⟩

/-- Fractional decimal expansion of a rational in `[0, 1)` (all values
reachable here terminate; the fuel caps the expansion). -/
def fracDigitsAux : Nat → ℚ → List Char
  | 0, _ => []
  | fuel + 1, r =>
    if r = 0 then []
    else
      let r10 := r * 10
      let d : ℤ := ⌊r10⌋
      Char.ofNat (48 + d.toNat) :: fracDigitsAux fuel (r10 - (d : ℚ))

/-- JS number-to-string (template-literal coercion) for the non-negative
terminating decimals this program produces; `"NaN"` for `NaN`. -/
def jsNumToString (v : Option ℚ) : String :=
  match v with
  | none => "NaN"
  | some q =>
    let neg := q < 0
    let aq := if neg then -q else q
    let ip : ℤ := ⌊aq⌋
    let ds := fracDigitsAux 30 (aq - (ip : ℚ))
    ⟨(if neg then ['-'] else []) ++ (toString ip.toNat).data
      ++ (if ds.isEmpty then [] else '.' :: ds)⟩

/-- Quoted, truncated context key of a direct-conflict header line. -/
def keyHeader (key : String) : String :=
  "**Context:** \"" ++ (⟨key.data.take 80⟩ : String)
    ++ (if key.length > 80 then "..." else "") ++ "\""

/-- The per-value lines of a direct conflict (value, contributing files,
deduplicated raw forms). -/
def renderValueDirect (val : Option ℚ) (fs : List Fact) : List String :=
  let files := dedupFirst (fs.map Fact.file)
  let raws := dedupFirst (fs.map Fact.raw)
  let shown := if (fs.head?.map Fact.type) = some "dollar"
    then "$" ++ jsToLocaleString val else jsNumToString val
  ["- Value: " ++ shown ++ "  in " ++ String.intercalate ", " files,
   "  - Raw: " ++ String.intercalate "; " raws]

/-- The per-value line of a cross-context conflict. -/
def renderValueCross (val : Option ℚ) (fs : List Fact) : List String :=
  let files := dedupFirst (fs.map Fact.file)
  let shown := if (fs.head?.map Fact.type) = some "dollar"
    then "$" ++ jsToLocaleString val else jsNumToString val
  ["- Value: " ++ shown ++ "  in " ++ String.intercalate ", " files]

/-- The similar-contexts header line (up to three quoted keys, each
truncated to 50 characters). -/
def crossHeader (keys : List String) : String :=
  "**Similar contexts:** " ++ String.intercalate " | "
    ((keys.take 3).map (fun k =>
      "\"" ++ (⟨k.data.take 50⟩ : String)
        ++ (if k.length > 50 then "..." else "") ++ "\""))

/-- The report body lines, exactly as `main` pushes them (note that the
`"None found."` check of section 2 looks at the unsuppressed cluster list,
and the summary counts the unsuppressed clusters as well). -/
def reportLines (allFacts : List Fact) : List String :=
  let byKey := buildByKey allFacts
  let conflicts := directConflicts allFacts
  let crossGroups := crossGroupConflicts allFacts
  let rendered := crossConflictsRendered allFacts
  ["# Discrepancy report (review before fixing)", "",
   "Generated from WEBROOT text documents. Fix only after reviewing.", "",
   "## 1. Conflicting numbers (same context key)", ""]
  ++ (if conflicts.isEmpty then ["None found."]
      else conflicts.flatMap (fun c =>
        keyHeader c.key :: (c.byValue.flatMap (fun p => renderValueDirect p.1 p.2) ++ [""])))
  ++ ["## 2. Possibly same topic, different numbers (similar context)", "",
      "May be ranges or different phases; review before treating as errors.", ""]
  ++ (if crossGroups.isEmpty then ["None found."]
      else rendered.flatMap (fun g =>
        crossHeader g.keys :: (g.byValue.flatMap (fun p => renderValueCross p.1 p.2) ++ [""])))
  ++ ["---",
      "**Summary:** " ++ toString allFacts.length ++ " facts, " ++ toString byKey.length
        ++ " context keys; " ++ toString conflicts.length ++ " direct conflicts, "
        ++ toString crossGroups.length ++ " similar-context groups."]

/-- The full pipeline of `main` as a pure function of the corpus snapshot:
extraction, pooling, grouping, clustering and rendering to the report text
(the bytes written to `discrepancy-report.md`). -/
def buildReport (corpus : List (String × String)) : String :=
  String.intercalate "\n" (reportLines (pooledFacts corpus))

/-- C8: the pipeline is a deterministic function of the corpus snapshot —
two runs over the same ordered `(documentId, fullText)` sequence produce
byte-identical reports.  In this pure embedding every stage (regex
scanning with `lastIndex`, `Map` insertion order, greedy clustering,
rendering) is a function, so determinism is definitional. -/
theorem pipeline_deterministic (c1 c2 : List (String × String)) (h : c1 = c2) :
    buildReport c1 = buildReport c2 := by rw [h]

/-- Witness for C8 on a concrete one-document corpus. -/
theorem pipeline_deterministic_witness :
    buildReport [("a.md", "we donated $5 million to the cause")]
      = buildReport [("a.md", "we donated $5 million to the cause")] :=
  pipeline_deterministic _ _ rfl

/-- C4 (amended): a similar-context cluster reaches the report exactly
when it is a cross-context conflict none of whose keys is the key of a
reported direct conflict; one covered key suffices for suppression. -/
theorem cross_rendered_iff (facts : List Fact) (g : CrossConflict) :
    g ∈ crossConflictsRendered facts ↔
      g ∈ crossGroupConflicts facts ∧
        ∀ c ∈ directConflicts facts, c.key ∉ g.keys := by
  unfold crossConflictsRendered
  rw [List.mem_filter]
  constructor
  · rintro ⟨h1, h2⟩
    refine ⟨h1, fun c hc hkey => ?_⟩
    rw [Bool.not_eq_true'] at h2
    rw [← Bool.not_eq_true, List.any_eq_true] at h2
    exact h2 ⟨c, hc, by simpa [List.contains, List.elem_iff] using hkey⟩
  · rintro ⟨h1, h2⟩
    refine ⟨h1, ?_⟩
    rw [Bool.not_eq_true']
    rw [← Bool.not_eq_true, List.any_eq_true]
    rintro ⟨c, hc, hkey⟩
    exact h2 c hc (by simpa [List.contains, List.elem_iff] using hkey)

/-- Fact list exhibiting the counterexample to C4 as stated. -/
def c4Facts : List Fact :=
  [{ type := "count", key := "alpha beta gamma delta", value := some 100,
     unit := some "units", raw := "100 units", file := "a.md" },
   { type := "count", key := "alpha beta gamma delta", value := some 200,
     unit := some "units", raw := "200 units", file := "b.md" },
   { type := "count", key := "alpha beta gamma epsilon", value := some 300,
     unit := some "units", raw := "300 units", file := "c.md" }]

/-- Counterexample to C4 as stated: the single similar-context cluster has
three distinct values and contains the key `"alpha beta gamma epsilon"`,
which no direct conflict covers — the claim says it must be reported — yet
the report suppresses it, because its other key belongs to a direct
conflict. -/
theorem cross_suppression_counterexample :
    (crossGroupConflicts c4Facts).length = 1 ∧
      (∃ g ∈ crossGroupConflicts c4Facts,
        "alpha beta gamma epsilon" ∈ g.keys ∧
          ∀ c ∈ directConflicts c4Facts, c.key ≠ "alpha beta gamma epsilon") ∧
      crossConflictsRendered c4Facts = [] := by decide

end DocCheck
